import Mathlib

/-!
Shallow embedding of the core geometric algorithms of lalboard
(src/lalboard.py): the rigid-body leveling routine
(`rotate_to_height_matrix`), the tangent-point solver
(`find_tangent_intersection_on_circle`), the retaining-ridge profile
construction (`retaining_ridge_design`), the screw-thread profile and the
thread-phase rotation.  Points and vectors are over ℝ; the external
geometry kernel's primitives (minimum-distance measurement, plane/circle
and circle/circle intersection, angle measurement, rotate-vector-onto-
vector matrices) are modelled mathematically as the spec describes them.
-/

namespace Lalboard

noncomputable section

/-- 3-D point / free vector (`adsk.core.Point3D` / `adsk.core.Vector3D`),
coordinates in millimeters, single global right-handed frame. -/
@[ext]
structure V3 where
  x : ℝ
  y : ℝ
  z : ℝ

/-- Componentwise addition (`Point3D.translateBy` / vector addition). -/
def V3.add (u v : V3) : V3 := ⟨u.x + v.x, u.y + v.y, u.z + v.z⟩

/-- Componentwise difference; `p.vectorTo(q)` is `V3.sub q p`. -/
def V3.sub (u v : V3) : V3 := ⟨u.x - v.x, u.y - v.y, u.z - v.z⟩

/-- Scalar multiple (`Vector3D.scaleBy`). -/
def V3.smul (t : ℝ) (v : V3) : V3 := ⟨t * v.x, t * v.y, t * v.z⟩

/-- Dot product (`Vector3D.dotProduct`). -/
def V3.dot (u v : V3) : ℝ := u.x * v.x + u.y * v.y + u.z * v.z

/-- Cross product (`Vector3D.crossProduct`). -/
def V3.cross (u v : V3) : V3 :=
  ⟨u.y * v.z - u.z * v.y, u.z * v.x - u.x * v.z, u.x * v.y - u.y * v.x⟩

/-- Squared euclidean length. -/
def V3.normSq (v : V3) : ℝ := V3.dot v v

/-- Euclidean length (`Vector3D.length`). -/
def V3.len (v : V3) : ℝ := Real.sqrt (V3.normSq v)

/-- An axis direction is vertical when its horizontal component vanishes;
`rotate_to_height_matrix` assumes a non-vertical axis. -/
def nonVertical (v : V3) : Prop := v.x ^ 2 + v.y ^ 2 ≠ 0

/-- Foot of the perpendicular from `target` onto the infinite line through
`axis_point` with direction `axis_vector`.  Models
`measureManager.measureMinimumDistance(target, axis).positionOne`
(external kernel measurement service, spec §6). -/
def axisProjection (axis_point axis_vector target : V3) : V3 :=
  V3.add axis_point
    (V3.smul (V3.dot (V3.sub target axis_point) axis_vector / V3.normSq axis_vector)
      axis_vector)

/-- Perpendicular distance from `target` to the axis.  Models
`measureManager.measureMinimumDistance(target, axis).value`. -/
def axisDistance (axis_point axis_vector target : V3) : ℝ :=
  V3.len (V3.sub target (axisProjection axis_point axis_vector target))

/-- Discriminant deciding how many points the circle with center `center`,
plane normal `v` and radius `d` shares with the horizontal plane `z = h`:
positive ⇔ two, zero ⇔ one (tangency), negative ⇔ none. -/
def circlePlaneDisc (center v : V3) (d h : ℝ) : ℝ :=
  (d ^ 2 - (h - center.z) ^ 2) * (v.x ^ 2 + v.y ^ 2) - v.z ^ 2 * (h - center.z) ^ 2

/-- One solution branch (`sign = 1` or `-1`) of the circle/plane system. -/
def circlePlanePoint (center v : V3) (d h : ℝ) (sign : ℝ) : V3 :=
  ⟨center.x + (-(v.z * (h - center.z) * v.x) -
      sign * v.y * Real.sqrt (circlePlaneDisc center v d h)) / (v.x ^ 2 + v.y ^ 2),
   center.y + (-(v.z * (h - center.z) * v.y) +
      sign * v.x * Real.sqrt (circlePlaneDisc center v d h)) / (v.x ^ 2 + v.y ^ 2),
   h⟩

/-- The 0–2 points where the horizontal plane `z = h` meets the circle
(center, normal `v`, radius `d`).  Models
`Plane.intersectWithCurve(circle)` (external kernel, spec §2: "return 0–2
intersection points with a deterministic ordering rule"). -/
def circlePlaneIntersections (center v : V3) (d h : ℝ) : List V3 :=
  if 0 < circlePlaneDisc center v d h then
    [circlePlanePoint center v d h 1, circlePlanePoint center v d h (-1)]
  else if circlePlaneDisc center v d h = 0 then
    [circlePlanePoint center v d h 1]
  else []

/-- The exact locus `body_point` sweeps while rotating about the axis,
cut by the plane `z = h`: points at distance `d` from `center` in the
plane through `center` perpendicular to `v`, at height `h`. -/
def sweepPlaneSlice (center v : V3) (d h : ℝ) : Set V3 :=
  {p | V3.dot (V3.sub p center) v = 0 ∧ V3.normSq (V3.sub p center) = d ^ 2 ∧ p.z = h}

/-- Angle at `p2` between the rays to `p1` and `p3`, in `[0, π]`.  Models
`measureManager.measureAngle(p1, p2, p3).value` (external kernel; the
source comments "the returned angle seems to be in [0, 180]"). -/
def measureAngle (p1 p2 p3 : V3) : ℝ :=
  Real.arccos (V3.dot (V3.sub p1 p2) (V3.sub p3 p2) /
    (V3.len (V3.sub p1 p2) * V3.len (V3.sub p3 p2)))

/-- `Matrix3D.setToRotateTo(a, b)` as a linear map: the minimal rotation
taking the direction of `a` to the direction of `b`, in Rodrigues form.
Models the external kernel's rotate-vector-onto-vector matrix
construction (spec §2). -/
def setToRotateTo (a b x : V3) : V3 :=
  V3.add
    (V3.add x (V3.cross (V3.smul (1 / Real.sqrt (V3.normSq a * V3.normSq b)) (V3.cross a b)) x))
    (V3.smul (1 / (1 + V3.dot a b / Real.sqrt (V3.normSq a * V3.normSq b)))
      (V3.cross (V3.smul (1 / Real.sqrt (V3.normSq a * V3.normSq b)) (V3.cross a b))
        (V3.cross (V3.smul (1 / Real.sqrt (V3.normSq a * V3.normSq b)) (V3.cross a b)) x)))

/-- The list `height_plane.intersectWithCurve(circle...)` computed inside
`rotate_to_height_matrix` (src/lalboard.py:2444): the circle is centered
at the axis projection of `target_point`, has the axis direction as
normal, and the perpendicular distance as radius. -/
def rotate_to_height_intersections (axis_point axis_vector target_point : V3)
    (height : ℝ) : List V3 :=
  circlePlaneIntersections (axisProjection axis_point axis_vector target_point)
    axis_vector (axisDistance axis_point axis_vector target_point) height

/-- The `assert len(intersections) == 2` guard of `rotate_to_height_matrix`
(src/lalboard.py:2445): the call aborts part generation unless the plane
meets the swept circle in exactly two points. -/
def rotate_to_height_succeeds (axis_point axis_vector target_point : V3)
    (height : ℝ) : Prop :=
  (rotate_to_height_intersections axis_point axis_vector target_point height).length = 2

/-- The intersection point `rotate_to_height_matrix` rotates `target_point`
onto: of the two candidates, the one subtending the smaller measured angle
at the axis projection; on a tie the strict `<` fails and the second
candidate is kept (src/lalboard.py:2447–2454). -/
def rotate_to_height_destination (axis_point axis_vector target_point : V3)
    (height : ℝ) : V3 :=
  if measureAngle target_point (axisProjection axis_point axis_vector target_point)
      ((rotate_to_height_intersections axis_point axis_vector target_point height).getD 0
        ⟨0, 0, 0⟩) <
     measureAngle target_point (axisProjection axis_point axis_vector target_point)
      ((rotate_to_height_intersections axis_point axis_vector target_point height).getD 1
        ⟨0, 0, 0⟩) then
    (rotate_to_height_intersections axis_point axis_vector target_point height).getD 0 ⟨0, 0, 0⟩
  else
    (rotate_to_height_intersections axis_point axis_vector target_point height).getD 1 ⟨0, 0, 0⟩

/-- `target` is strictly off the axis: its perpendicular distance to the
line is nonzero.  `rotate_to_height_matrix` assumes this. -/
def offAxis (axis_point axis_vector target : V3) : Prop :=
  V3.normSq (V3.sub target (axisProjection axis_point axis_vector target)) ≠ 0

/-- The rejected intersection candidate: the one `rotate_to_height_matrix`
does not rotate onto (the alternate, larger-angle solution). -/
def rotate_to_height_alternate (axis_point axis_vector target_point : V3)
    (height : ℝ) : V3 :=
  if measureAngle target_point (axisProjection axis_point axis_vector target_point)
      ((rotate_to_height_intersections axis_point axis_vector target_point height).getD 0
        ⟨0, 0, 0⟩) <
     measureAngle target_point (axisProjection axis_point axis_vector target_point)
      ((rotate_to_height_intersections axis_point axis_vector target_point height).getD 1
        ⟨0, 0, 0⟩) then
    (rotate_to_height_intersections axis_point axis_vector target_point height).getD 1 ⟨0, 0, 0⟩
  else
    (rotate_to_height_intersections axis_point axis_vector target_point height).getD 0 ⟨0, 0, 0⟩

/-- `rotate_to_height_matrix` (src/lalboard.py:2412–2471) as the affine map
it returns: translate the axis projection to the origin, apply the
rotate-vector-onto-vector rotation taking `proj→target_point` to
`proj→destination`, translate back. -/
def rotate_to_height_matrix (axis_point axis_vector target_point : V3) (height : ℝ)
    (p : V3) : V3 :=
  V3.add (axisProjection axis_point axis_vector target_point)
    (setToRotateTo
      (V3.sub target_point (axisProjection axis_point axis_vector target_point))
      (V3.sub (rotate_to_height_destination axis_point axis_vector target_point height)
        (axisProjection axis_point axis_vector target_point))
      (V3.sub p (axisProjection axis_point axis_vector target_point)))

/-- The two-stage leveling sequence used by `cluster_assembly`
(src/lalboard.py:1331–1348) and `thumb_assembly` (src/lalboard.py:2157–2174):
with the first attachment point `p1` already pinned by translation, rotate
about the world-fixed horizontal x-axis through `p1` to bring `p2` to
height `h2`, then rotate about the axis through `p1` and the moved `p2` to
bring the moved `p3` to height `h3`.  Returns the final three points. -/
def level_two_stage (p1 p2 p3 : V3) (h2 h3 : ℝ) : V3 × V3 × V3 :=
  (rotate_to_height_matrix p1
      (V3.sub (rotate_to_height_matrix p1 ⟨1, 0, 0⟩ p2 h2 p2) p1)
      (rotate_to_height_matrix p1 ⟨1, 0, 0⟩ p2 h2 p3) h3
      (rotate_to_height_matrix p1 ⟨1, 0, 0⟩ p2 h2 p1),
   rotate_to_height_matrix p1
      (V3.sub (rotate_to_height_matrix p1 ⟨1, 0, 0⟩ p2 h2 p2) p1)
      (rotate_to_height_matrix p1 ⟨1, 0, 0⟩ p2 h2 p3) h3
      (rotate_to_height_matrix p1 ⟨1, 0, 0⟩ p2 h2 p2),
   rotate_to_height_matrix p1
      (V3.sub (rotate_to_height_matrix p1 ⟨1, 0, 0⟩ p2 h2 p2) p1)
      (rotate_to_height_matrix p1 ⟨1, 0, 0⟩ p2 h2 p3) h3
      (rotate_to_height_matrix p1 ⟨1, 0, 0⟩ p2 h2 p3))

/-- 2-D point / free vector in the working plane of the 2-D constructions
(the xy-plane; all rotations there are about the z-axis). -/
@[ext]
structure V2 where
  x : ℝ
  y : ℝ

/-- Componentwise addition. -/
def V2.add (u v : V2) : V2 := ⟨u.x + v.x, u.y + v.y⟩

/-- Componentwise difference. -/
def V2.sub (u v : V2) : V2 := ⟨u.x - v.x, u.y - v.y⟩

/-- Scalar multiple. -/
def V2.smul (t : ℝ) (v : V2) : V2 := ⟨t * v.x, t * v.y⟩

/-- Dot product. -/
def V2.dot (u v : V2) : ℝ := u.x * v.x + u.y * v.y

/-- 2-D cross product (z-component of the 3-D cross product). -/
def cross2 (u v : V2) : ℝ := u.x * v.y - u.y * v.x

/-- Squared euclidean length. -/
def V2.normSq (v : V2) : ℝ := V2.dot v v

/-- Euclidean length. -/
def V2.len (v : V2) : ℝ := Real.sqrt (V2.normSq v)

/-- A circle in the working plane (fscad `Circle`: center and radius). -/
structure Circle2 where
  center : V2
  radius : ℝ

/-- Discriminant for the intersection of two coplanar circles: positive ⇔
two points, zero ⇔ one (tangency), negative ⇔ none. -/
def circleCircleDisc (c1 c2 : Circle2) : ℝ :=
  c1.radius ^ 2 / V2.normSq (V2.sub c2.center c1.center) -
    ((V2.normSq (V2.sub c2.center c1.center) + c1.radius ^ 2 - c2.radius ^ 2) /
      (2 * V2.normSq (V2.sub c2.center c1.center))) ^ 2

/-- One solution branch (`sign = 1` or `-1`) of the circle/circle system. -/
def circleCirclePoint (c1 c2 : Circle2) (sign : ℝ) : V2 :=
  V2.add c1.center
    (V2.add
      (V2.smul ((V2.normSq (V2.sub c2.center c1.center) + c1.radius ^ 2 - c2.radius ^ 2) /
          (2 * V2.normSq (V2.sub c2.center c1.center)))
        (V2.sub c2.center c1.center))
      (V2.smul (sign * Real.sqrt (circleCircleDisc c1 c2))
        ⟨-(V2.sub c2.center c1.center).y, (V2.sub c2.center c1.center).x⟩))

/-- The 0–2 points where two coplanar circles meet.  Models the kernel's
`Intersection(circle, intersecting_circle)` vertex query (spec §2:
"0–2 intersection points with a deterministic ordering rule"). -/
def circleCircleIntersections (c1 c2 : Circle2) : List V2 :=
  if 0 < circleCircleDisc c1 c2 then
    [circleCirclePoint c1 c2 1, circleCirclePoint c1 c2 (-1)]
  else if circleCircleDisc c1 c2 = 0 then [circleCirclePoint c1 c2 1]
  else []

/-- `find_tangent_intersection_on_circle` (src/lalboard.py:618–629): halve
the vector from the external point to the circle center, build the
auxiliary circle of that half-length radius centered at the midpoint, and
return the vertices of its intersection with the original circle. -/
def find_tangent_intersection_on_circle (circle : Circle2) (point : V2) : List V2 :=
  circleCircleIntersections circle
    ⟨V2.add point (V2.smul (1 / 2) (V2.sub circle.center point)),
     V2.len (V2.smul (1 / 2) (V2.sub circle.center point))⟩

/-- An infinite line in the working plane (`adsk.core.InfiniteLine3D`
restricted to the construction plane): origin and direction. -/
structure Line2 where
  origin : V2
  dir : V2

/-- The points of an infinite line. -/
def lineSet (l : Line2) : Set V2 :=
  {p | ∃ t : ℝ, p = V2.add l.origin (V2.smul t l.dir)}

/-- The intersection point of two non-parallel infinite lines.  Models
`InfiniteLine3D.intersectWithCurve(line)[0]` (external kernel). -/
def lineIntersect (l1 l2 : Line2) : V2 :=
  V2.add l1.origin
    (V2.smul (cross2 (V2.sub l2.origin l1.origin) l2.dir / cross2 l1.dir l2.dir) l1.dir)

/-- The local helper `rotated(vector, angle)` of `retaining_ridge_design`
(src/lalboard.py:146–151): rotate a vector about the z-axis by `angle`
degrees (`Matrix3D.setToRotation(math.radians(angle), z, origin)`). -/
def rotated (v : V2) (angle : ℝ) : V2 :=
  ⟨v.x * Real.cos (angle * Real.pi / 180) - v.y * Real.sin (angle * Real.pi / 180),
   v.x * Real.sin (angle * Real.pi / 180) + v.y * Real.cos (angle * Real.pi / 180)⟩

/-- The local helper `vectorTo(point, vector, length)` of
`retaining_ridge_design` (src/lalboard.py:153–158): translate `point` by
`length` times `vector`. -/
def vectorTo (point v : V2) (length : ℝ) : V2 := V2.add point (V2.smul length v)

/-- `retaining_ridge_thickness = .3` — how much the ridge sticks out. -/
def retaining_ridge_thickness : ℝ := 0.3

/-- `retaining_ridge_lower_angle = 45` — slope of the retention face. -/
def retaining_ridge_lower_angle : ℝ := 45

/-- `retaining_ridge_width = .3` — the length of the "face" of the ridge. -/
def retaining_ridge_width : ℝ := 0.3

/-- The local frame vector `up = (0, 1, 0)` of `retaining_ridge_design`. -/
def ridge_up : V2 := ⟨0, 1⟩

/-- `right = rotated(up, -90)`. -/
def ridge_right : V2 := rotated ridge_up (-90)

/-- `down = rotated(right, -90)`. -/
def ridge_down : V2 := rotated ridge_right (-90)

/-- `left = rotated(down, -90)`. -/
def ridge_left : V2 := rotated ridge_down (-90)

/-- `lines[0]`: through the origin, along "down" rotated by
`-pressed_key_angle` (src/lalboard.py:174–176). -/
def ridge_line0 (pressed_key_angle : ℝ) : Line2 :=
  ⟨⟨0, 0⟩, rotated ridge_down (-pressed_key_angle)⟩

/-- `lines[1]`: through the origin, along "left" (src/lalboard.py:177–179). -/
def ridge_line1 : Line2 := ⟨⟨0, 0⟩, ridge_left⟩

/-- `lines[2]`: through the origin offset by the ridge thickness along
"left" rotated by `-pressed_key_angle`, parallel to `lines[0]`
(src/lalboard.py:181–184). -/
def ridge_line2 (pressed_key_angle : ℝ) : Line2 :=
  ⟨vectorTo ⟨0, 0⟩ (rotated ridge_left (-pressed_key_angle)) retaining_ridge_thickness,
   rotated ridge_down (-pressed_key_angle)⟩

/-- `lines[3]`: through the intersection of `lines[1]` and `lines[2]`
offset by the ridge width along `lines[0]`'s direction, along "down"
rotated by the 45° lower-ridge angle (src/lalboard.py:186–189). -/
def ridge_line3 (pressed_key_angle : ℝ) : Line2 :=
  ⟨vectorTo (lineIntersect ridge_line1 (ridge_line2 pressed_key_angle))
      (rotated ridge_down (-pressed_key_angle)) retaining_ridge_width,
   rotated ridge_down retaining_ridge_lower_angle⟩

/-- The `lines` list built by `retaining_ridge_design`. -/
def ridge_lines (pressed_key_angle : ℝ) : List Line2 :=
  [ridge_line0 pressed_key_angle, ridge_line1, ridge_line2 pressed_key_angle,
   ridge_line3 pressed_key_angle]

/-- Python list indexing with negative wraparound, as used by
`lines[i]` for `i in range(-1, 3)`. -/
def pyGet (lines : List Line2) (i : ℤ) : Line2 :=
  lines.getD (if i < 0 then ((lines.length : ℤ) + i).toNat else i.toNat) ⟨⟨0, 0⟩, ⟨0, 0⟩⟩

/-- The polygon vertices of `retaining_ridge_design` (src/lalboard.py:191–194):
`lines[i].intersectWithCurve(lines[i+1])[0]` for `i in range(-1, 3)`. -/
def retaining_ridge_points (pressed_key_angle : ℝ) : List V2 :=
  List.map
    (fun i =>
      lineIntersect (pyGet (ridge_lines pressed_key_angle) i)
        (pyGet (ridge_lines pressed_key_angle) (i + 1)))
    [-1, 0, 1, 2]

/-- The ridge-profile vertices as the spec describes them: the cyclic
consecutive-pair intersections L3∩L0, L0∩L1, L1∩L2, L2∩L3 of the four
constructed lines (spec §4.3). -/
def spec_ridge_vertices (pressed_key_angle : ℝ) : List V2 :=
  [lineIntersect (ridge_line3 pressed_key_angle) (ridge_line0 pressed_key_angle),
   lineIntersect (ridge_line0 pressed_key_angle) ridge_line1,
   lineIntersect ridge_line1 (ridge_line2 pressed_key_angle),
   lineIntersect (ridge_line2 pressed_key_angle) (ridge_line3 pressed_key_angle)]

/-- Strict convexity with counterclockwise orientation of the quadrilateral
`p0 p1 p2 p3`: every consecutive edge pair turns left. -/
def convexCCW4 (p0 p1 p2 p3 : V2) : Prop :=
  0 < cross2 (V2.sub p1 p0) (V2.sub p2 p1) ∧
  0 < cross2 (V2.sub p2 p1) (V2.sub p3 p2) ∧
  0 < cross2 (V2.sub p3 p2) (V2.sub p0 p3) ∧
  0 < cross2 (V2.sub p0 p3) (V2.sub p1 p0)

/-- Shoelace signed area of the quadrilateral `p0 p1 p2 p3`. -/
def signedArea4 (p0 p1 p2 p3 : V2) : ℝ :=
  (cross2 p0 p1 + cross2 p1 p2 + cross2 p2 p3 + cross2 p3 p0) / 2

/-- The closed segment between two points. -/
def seg (a b : V2) : Set V2 :=
  {p | ∃ t : ℝ, 0 ≤ t ∧ t ≤ 1 ∧ p = V2.add a (V2.smul t (V2.sub b a))}

/-- Simplicity (non-self-intersection) of the closed quadrilateral
`p0 p1 p2 p3`: opposite edges are disjoint and adjacent edges share
exactly their common vertex. -/
def simple4 (p0 p1 p2 p3 : V2) : Prop :=
  seg p0 p1 ∩ seg p2 p3 = ∅ ∧ seg p1 p2 ∩ seg p3 p0 = ∅ ∧
  seg p0 p1 ∩ seg p1 p2 = {p1} ∧ seg p1 p2 ∩ seg p2 p3 = {p2} ∧
  seg p2 p3 ∩ seg p3 p0 = {p3} ∧ seg p3 p0 ∩ seg p0 p1 = {p0}

/-- `screw_thread_profile(pitch=1.4, angle=37.5, flat_height=.2)`
(src/lalboard.py:1383–1389): the thread cross-section polygon and the
pitch. -/
def screw_thread_profile (pitch angle flat_height : ℝ) : List (ℝ × ℝ) × ℝ :=
  ([(0, flat_height / 2),
    (((pitch - flat_height * 2) / 2) / Real.tan (angle * Real.pi / 180),
      flat_height / 2 + (pitch - flat_height * 2) / 2),
    (((pitch - flat_height * 2) / 2) / Real.tan (angle * Real.pi / 180),
      flat_height / 2 + (pitch - flat_height * 2) / 2 + flat_height),
    (0, pitch - flat_height / 2)],
   pitch)

/-- The default thread pitch: `_, pitch = screw_thread_profile()` with the
default arguments (src/lalboard.py:1583). -/
def default_thread_pitch : ℝ := (screw_thread_profile 1.4 37.5 0.2).2

/-- The thread-phase rotation applied by `screw_support_assembly`
(src/lalboard.py:1589): `screw.rz(-360 * offset / pitch)` where `offset`
is the axial offset `screw_base.max().z - screw.min().z`. -/
def phase_rotation (pitch axial_offset : ℝ) : ℝ := -360 * axial_offset / pitch

theorem V3_normSq_nonneg (v : V3) : 0 ≤ V3.normSq v := by
  simp only [V3.normSq, V3.dot]
  nlinarith [sq_nonneg v.x, sq_nonneg v.y, sq_nonneg v.z]

theorem V3_normSq_eq_zero {v : V3} (h : V3.normSq v = 0) : v = ⟨0, 0, 0⟩ := by
  simp only [V3.normSq, V3.dot] at h
  have hx : v.x = 0 := by nlinarith [sq_nonneg v.x, sq_nonneg v.y, sq_nonneg v.z]
  have hy : v.y = 0 := by nlinarith [sq_nonneg v.x, sq_nonneg v.y, sq_nonneg v.z]
  have hz : v.z = 0 := by nlinarith [sq_nonneg v.x, sq_nonneg v.y, sq_nonneg v.z]
  ext <;> assumption

theorem lagrange_identity (u w : V3) :
    V3.normSq (V3.cross u w) = V3.normSq u * V3.normSq w - V3.dot u w ^ 2 := by
  simp only [V3.normSq, V3.dot, V3.cross]
  ring

theorem dot_sq_le (u w : V3) : V3.dot u w ^ 2 ≤ V3.normSq u * V3.normSq w := by
  have h1 := lagrange_identity u w
  have h2 := V3_normSq_nonneg (V3.cross u w)
  linarith

theorem eq_neg_of_dot_eq_neg {u w : V3} (hn : V3.normSq w = V3.normSq u)
    (h : V3.dot u w = -V3.normSq u) : w = V3.smul (-1) u := by
  have hz : V3.normSq (V3.add w u) = 0 := by
    simp only [V3.normSq, V3.dot, V3.add] at *
    linarith
  have h0 := V3_normSq_eq_zero hz
  simp only [V3.add] at h0
  have h1 := congrArg V3.x h0
  have h2 := congrArg V3.y h0
  have h3 := congrArg V3.z h0
  simp only at h1 h2 h3
  ext <;> simp only [V3.smul] <;> linarith

theorem eq_of_dot_eq_pos {u w : V3} (hn : V3.normSq w = V3.normSq u)
    (h : V3.dot u w = V3.normSq u) : w = u := by
  have hz : V3.normSq (V3.sub w u) = 0 := by
    simp only [V3.normSq, V3.dot, V3.sub] at *
    linarith
  have h0 := V3_normSq_eq_zero hz
  simp only [V3.sub] at h0
  have h1 := congrArg V3.x h0
  have h2 := congrArg V3.y h0
  have h3 := congrArg V3.z h0
  simp only at h1 h2 h3
  ext <;> linarith

theorem proj_perp (A v T : V3) :
    V3.dot (V3.sub T (axisProjection A v T)) v = 0 := by
  by_cases hv : V3.normSq v = 0
  · have h0 := V3_normSq_eq_zero hv
    rw [h0]
    simp [V3.dot]
  · simp only [axisProjection, V3.dot, V3.sub, V3.add, V3.smul, V3.normSq] at *
    field_simp
    ring

theorem axisDistance_sq (A v T : V3) :
    axisDistance A v T ^ 2 = V3.normSq (V3.sub T (axisProjection A v T)) :=
  Real.sq_sqrt (V3_normSq_nonneg _)

theorem axisDistance_nonneg (A v T : V3) : 0 ≤ axisDistance A v T :=
  Real.sqrt_nonneg _

theorem circlePlanePoint_mem {center v : V3} {d h : ℝ} (hs : nonVertical v)
    (hD : 0 ≤ circlePlaneDisc center v d h) {sign : ℝ} (hsign : sign = 1 ∨ sign = -1) :
    circlePlanePoint center v d h sign ∈ sweepPlaneSlice center v d h := by
  have hr : Real.sqrt (circlePlaneDisc center v d h) ^ 2 = circlePlaneDisc center v d h :=
    Real.sq_sqrt hD
  unfold nonVertical at hs
  refine ⟨?_, ?_, rfl⟩
  · simp only [circlePlanePoint, V3.dot, V3.sub]
    field_simp
    ring
  · simp only [circlePlanePoint, V3.normSq, V3.dot, V3.sub]
    simp only [circlePlaneDisc] at hr ⊢
    rcases hsign with rfl | rfl <;>
      · field_simp
        linear_combination (v.x ^ 2 + v.y ^ 2) * hr

theorem sweepSlice_mem_branches {center v : V3} {d h : ℝ} (hs : nonVertical v)
    {p : V3} (hp : p ∈ sweepPlaneSlice center v d h) :
    0 ≤ circlePlaneDisc center v d h ∧
      (p = circlePlanePoint center v d h 1 ∨ p = circlePlanePoint center v d h (-1)) := by
  obtain ⟨h1, h2, h3⟩ := hp
  unfold nonVertical at hs
  simp only [V3.dot, V3.sub] at h1
  simp only [V3.normSq, V3.dot, V3.sub] at h2
  set B := v.x * (p.y - center.y) - v.y * (p.x - center.x) with hB
  have hzz : p.z - center.z = h - center.z := by rw [h3]
  have hdot : (p.x - center.x) * v.x + (p.y - center.y) * v.y +
      (h - center.z) * v.z = 0 := by
    rw [← hzz]
    linarith [h1]
  have hwx : p.x - center.x =
      (-(v.z * (h - center.z) * v.x) - v.y * B) / (v.x ^ 2 + v.y ^ 2) := by
    rw [eq_div_iff hs]
    linear_combination v.x * hdot + v.y * hB
  have hwy : p.y - center.y =
      (-(v.z * (h - center.z) * v.y) + v.x * B) / (v.x ^ 2 + v.y ^ 2) := by
    rw [eq_div_iff hs]
    linear_combination v.y * hdot - v.x * hB
  have hnsq : (p.x - center.x) ^ 2 + (p.y - center.y) ^ 2 + (h - center.z) ^ 2 = d ^ 2 := by
    rw [← hzz]
    linear_combination h2
  have hDB : circlePlaneDisc center v d h = B ^ 2 := by
    have e1 : ((p.x - center.x) ^ 2 + (p.y - center.y) ^ 2) * (v.x ^ 2 + v.y ^ 2) =
        (v.z * (h - center.z)) ^ 2 + B ^ 2 := by
      rw [hwx, hwy]
      field_simp
      ring
    simp only [circlePlaneDisc]
    linear_combination e1 - (v.x ^ 2 + v.y ^ 2) * hnsq
  constructor
  · rw [hDB]
    positivity
  · rcases le_or_lt 0 B with hBpos | hBneg
    · left
      have hrB : Real.sqrt (circlePlaneDisc center v d h) = B := by
        rw [hDB, Real.sqrt_sq hBpos]
      ext
      · simp only [circlePlanePoint, hrB, one_mul]
        linarith [hwx]
      · simp only [circlePlanePoint, hrB, one_mul]
        linarith [hwy]
      · simpa only [circlePlanePoint] using h3
    · right
      have hrB : Real.sqrt (circlePlaneDisc center v d h) = -B := by
        rw [hDB, Real.sqrt_sq_eq_abs, abs_of_neg hBneg]
      ext
      · simp only [circlePlanePoint, hrB, neg_mul, mul_neg, neg_neg, one_mul]
        linarith [hwx]
      · simp only [circlePlanePoint, hrB, neg_mul, mul_neg, neg_neg, one_mul]
        linarith [hwy]
      · simpa only [circlePlanePoint] using h3

theorem dot_comm3 (u v : V3) : V3.dot u v = V3.dot v u := by
  simp only [V3.dot]
  ring

theorem cross_smul_left (t : ℝ) (a b : V3) :
    V3.cross (V3.smul t a) b = V3.smul t (V3.cross a b) := by
  simp only [V3.cross, V3.smul, V3.mk.injEq]
  refine ⟨by ring, by ring, by ring⟩

theorem cross_smul_right (t : ℝ) (a b : V3) :
    V3.cross a (V3.smul t b) = V3.smul t (V3.cross a b) := by
  simp only [V3.cross, V3.smul, V3.mk.injEq]
  refine ⟨by ring, by ring, by ring⟩

theorem triple_cross (a b c : V3) :
    V3.cross (V3.cross a b) c =
      V3.sub (V3.smul (V3.dot a c) b) (V3.smul (V3.dot b c) a) := by
  simp only [V3.cross, V3.dot, V3.smul, V3.sub, V3.mk.injEq]
  refine ⟨by ring, by ring, by ring⟩

theorem smul_zero3 (t : ℝ) : V3.smul t ⟨0, 0, 0⟩ = ⟨0, 0, 0⟩ := by
  simp [V3.smul]

theorem cross_zero_right (a : V3) : V3.cross a ⟨0, 0, 0⟩ = ⟨0, 0, 0⟩ := by
  simp [V3.cross]

theorem add_zero3 (a : V3) : V3.add a ⟨0, 0, 0⟩ = a := by
  simp [V3.add]

theorem circlePlaneIntersections_length_two {center v : V3} {d h : ℝ} :
    (circlePlaneIntersections center v d h).length = 2 ↔
      0 < circlePlaneDisc center v d h := by
  unfold circlePlaneIntersections
  split_ifs with h1 h2 <;> simp_all

theorem circlePlanePoint_ne {center v : V3} {d h : ℝ} (hs : nonVertical v)
    (hD : 0 < circlePlaneDisc center v d h) :
    circlePlanePoint center v d h 1 ≠ circlePlanePoint center v d h (-1) := by
  intro he
  have hx := congrArg V3.x he
  have hy := congrArg V3.y he
  simp only [circlePlanePoint, one_mul, neg_mul, mul_neg, neg_neg] at hx hy
  have hr : 0 < Real.sqrt (circlePlaneDisc center v d h) := Real.sqrt_pos.mpr hD
  unfold nonVertical at hs
  have hx2 : v.y * Real.sqrt (circlePlaneDisc center v d h) = 0 := by
    field_simp at hx
    linarith
  have hy2 : v.x * Real.sqrt (circlePlaneDisc center v d h) = 0 := by
    field_simp at hy
    linarith
  apply hs
  have hvy : v.y = 0 := by
    rcases mul_eq_zero.mp hx2 with h1 | h1
    · exact h1
    · exact absurd h1 (ne_of_gt hr)
  have hvx : v.x = 0 := by
    rcases mul_eq_zero.mp hy2 with h1 | h1
    · exact h1
    · exact absurd h1 (ne_of_gt hr)
  rw [hvx, hvy]
  ring

theorem setToRotateTo_self (u x : V3) : setToRotateTo u u x = x := by
  ext <;> simp only [setToRotateTo, V3.cross, V3.dot, V3.smul, V3.add, V3.normSq] <;> ring

theorem setToRotateTo_maps {u w : V3} (hnw : V3.normSq w = V3.normSq u)
    (h0 : V3.normSq u ≠ 0) (hc : V3.dot u w ≠ -V3.normSq u) :
    setToRotateTo u w u = w := by
  have hpos : 0 < V3.normSq u := (V3_normSq_nonneg u).lt_of_ne (Ne.symm h0)
  have hn : Real.sqrt (V3.normSq u * V3.normSq w) = V3.normSq u := by
    rw [hnw, Real.sqrt_mul_self hpos.le]
  have hden : 1 + V3.dot u w / V3.normSq u ≠ 0 := by
    intro hcon
    apply hc
    field_simp at hcon
    linarith
  have k2 : V3.cross (V3.cross u w) (V3.cross (V3.cross u w) u) =
      V3.smul (V3.dot u w ^ 2 - V3.normSq u * V3.normSq w) u := by
    simp only [V3.cross, V3.smul, V3.normSq, V3.dot, V3.mk.injEq]
    refine ⟨by ring, by ring, by ring⟩
  have hsum : V3.normSq u + V3.dot u w ≠ 0 := by
    intro hcon
    apply hc
    linarith
  unfold setToRotateTo
  rw [hn]
  simp only [cross_smul_left, cross_smul_right]
  rw [k2, triple_cross, hnw]
  have hd : V3.dot w u = V3.dot u w := dot_comm3 w u
  have hdd : V3.dot u u = V3.normSq u := rfl
  have hbeta : 1 + V3.dot u w / V3.normSq u = (V3.normSq u + V3.dot u w) / V3.normSq u := by
    field_simp
  rw [hd, hdd, hbeta, one_div_div]
  ext <;> simp only [V3.add, V3.smul, V3.sub] <;> field_simp [h0, hsum] <;> ring

theorem setToRotateTo_fixes {u w v : V3} (hu : V3.dot u v = 0) (hw : V3.dot w v = 0)
    (t : ℝ) : setToRotateTo u w (V3.smul t v) = V3.smul t v := by
  have hz : V3.cross (V3.cross u w) v = ⟨0, 0, 0⟩ := by
    rw [triple_cross, hu, hw]
    simp [V3.smul, V3.sub]
  unfold setToRotateTo
  simp only [cross_smul_left, cross_smul_right, hz, smul_zero3, cross_zero_right, add_zero3]

theorem succeeds_iff_disc_pos {A v T : V3} {h : ℝ} :
    rotate_to_height_succeeds A v T h ↔
      0 < circlePlaneDisc (axisProjection A v T) v (axisDistance A v T) h := by
  unfold rotate_to_height_succeeds rotate_to_height_intersections
  exact circlePlaneIntersections_length_two

theorem intersections_eq_pair {A v T : V3} {h : ℝ}
    (hD : 0 < circlePlaneDisc (axisProjection A v T) v (axisDistance A v T) h) :
    rotate_to_height_intersections A v T h =
      [circlePlanePoint (axisProjection A v T) v (axisDistance A v T) h 1,
       circlePlanePoint (axisProjection A v T) v (axisDistance A v T) h (-1)] := by
  unfold rotate_to_height_intersections circlePlaneIntersections
  rw [if_pos hD]

theorem destination_mem_slice {A v T : V3} {h : ℝ} (hs : nonVertical v)
    (hsucc : rotate_to_height_succeeds A v T h) :
    rotate_to_height_destination A v T h ∈
      sweepPlaneSlice (axisProjection A v T) v (axisDistance A v T) h := by
  have hD := succeeds_iff_disc_pos.mp hsucc
  unfold rotate_to_height_destination
  rw [intersections_eq_pair hD]
  simp only [List.getD_cons_zero, List.getD_cons_succ]
  split_ifs
  · exact circlePlanePoint_mem hs hD.le (Or.inl rfl)
  · exact circlePlanePoint_mem hs hD.le (Or.inr rfl)

theorem measureAngle_le_pi (p1 p2 p3 : V3) : measureAngle p1 p2 p3 ≤ Real.pi :=
  Real.arccos_le_pi _

theorem destination_eq_if {A v T : V3} {h : ℝ}
    (hD : 0 < circlePlaneDisc (axisProjection A v T) v (axisDistance A v T) h) :
    rotate_to_height_destination A v T h =
      if measureAngle T (axisProjection A v T)
          (circlePlanePoint (axisProjection A v T) v (axisDistance A v T) h 1) <
         measureAngle T (axisProjection A v T)
          (circlePlanePoint (axisProjection A v T) v (axisDistance A v T) h (-1)) then
        circlePlanePoint (axisProjection A v T) v (axisDistance A v T) h 1
      else circlePlanePoint (axisProjection A v T) v (axisDistance A v T) h (-1) := by
  unfold rotate_to_height_destination
  rw [intersections_eq_pair hD]
  simp [List.getD_cons_zero, List.getD_cons_succ]

theorem matrix_fixes_axis {A v T X : V3} {h : ℝ} (hs : nonVertical v)
    (hsucc : rotate_to_height_succeeds A v T h) {t : ℝ}
    (hX : X = V3.add A (V3.smul t v)) :
    rotate_to_height_matrix A v T h X = X := by
  have hperp := proj_perp A v T
  have hdest := destination_mem_slice hs hsucc
  have hwperp : V3.dot
      (V3.sub (rotate_to_height_destination A v T h) (axisProjection A v T)) v = 0 :=
    hdest.1
  have hXP : V3.sub X (axisProjection A v T) =
      V3.smul (t - V3.dot (V3.sub T A) v / V3.normSq v) v := by
    rw [hX]
    ext <;> simp only [axisProjection, V3.dot, V3.normSq, V3.add, V3.smul, V3.sub] <;> ring
  unfold rotate_to_height_matrix
  rw [hXP, setToRotateTo_fixes hperp hwperp, ← hXP]
  ext <;> simp only [V3.add, V3.sub] <;> ring

theorem axisDistance_pos {A v T : V3} (hoff : offAxis A v T) :
    0 < axisDistance A v T := by
  rcases (axisDistance_nonneg A v T).lt_or_eq with hlt | heq
  · exact hlt
  · exfalso
    apply hoff
    rw [← axisDistance_sq, ← heq]
    ring

theorem len_eq_of_normSq_eq_sq {u : V3} {d : ℝ} (hd : 0 ≤ d)
    (h : V3.normSq u = d ^ 2) : V3.len u = d := by
  rw [V3.len, h, Real.sqrt_sq hd]

theorem matrix_maps_target {A v T : V3} {h : ℝ} (hs : nonVertical v)
    (hoff : offAxis A v T) (hsucc : rotate_to_height_succeeds A v T h) :
    rotate_to_height_matrix A v T h T = rotate_to_height_destination A v T h := by
  have hD := succeeds_iff_disc_pos.mp hsucc
  have hdsq := axisDistance_sq A v T
  have hdpos := axisDistance_pos hoff
  obtain ⟨hw1, hw2, hw3⟩ := destination_mem_slice hs hsucc
  have hnu : V3.normSq (V3.sub T (axisProjection A v T)) ≠ 0 := hoff
  have hnusq : V3.normSq (V3.sub T (axisProjection A v T)) = axisDistance A v T ^ 2 :=
    hdsq.symm
  have hnw : V3.normSq
      (V3.sub (rotate_to_height_destination A v T h) (axisProjection A v T)) =
      V3.normSq (V3.sub T (axisProjection A v T)) := by
    rw [hw2, hnusq]
  have hlu : V3.len (V3.sub T (axisProjection A v T)) = axisDistance A v T :=
    len_eq_of_normSq_eq_sq hdpos.le hnusq
  have hanti : V3.dot (V3.sub T (axisProjection A v T))
      (V3.sub (rotate_to_height_destination A v T h) (axisProjection A v T)) ≠
      -V3.normSq (V3.sub T (axisProjection A v T)) := by
    intro hdot
    have hwu := eq_neg_of_dot_eq_neg hnw hdot
    have hldest : V3.len
        (V3.sub (rotate_to_height_destination A v T h) (axisProjection A v T)) =
        axisDistance A v T :=
      len_eq_of_normSq_eq_sq hdpos.le hw2
    have hangle_dest : measureAngle T (axisProjection A v T)
        (rotate_to_height_destination A v T h) = Real.pi := by
      unfold measureAngle
      rw [hlu, hldest, hdot, hnusq]
      have hratio : -(axisDistance A v T ^ 2) /
          (axisDistance A v T * axisDistance A v T) = -1 := by
        field_simp
        ring
      rw [hratio, Real.arccos_neg_one]
    rw [destination_eq_if hD] at hangle_dest hwu
    by_cases hlt : measureAngle T (axisProjection A v T)
        (circlePlanePoint (axisProjection A v T) v (axisDistance A v T) h 1) <
        measureAngle T (axisProjection A v T)
        (circlePlanePoint (axisProjection A v T) v (axisDistance A v T) h (-1))
    · rw [if_pos hlt] at hangle_dest
      rw [hangle_dest] at hlt
      exact absurd hlt (not_lt.mpr (measureAngle_le_pi _ _ _))
    · rw [if_neg hlt] at hangle_dest hwu
      have hq0_pi : measureAngle T (axisProjection A v T)
          (circlePlanePoint (axisProjection A v T) v (axisDistance A v T) h 1) =
          Real.pi := by
        have h1 := not_lt.mp hlt
        rw [hangle_dest] at h1
        exact le_antisymm (measureAngle_le_pi _ _ _) h1
      have hq0_mem := @circlePlanePoint_mem (axisProjection A v T) v
        (axisDistance A v T) h hs hD.le 1 (Or.inl rfl)
      have hlq0 : V3.len (V3.sub
          (circlePlanePoint (axisProjection A v T) v (axisDistance A v T) h 1)
          (axisProjection A v T)) = axisDistance A v T :=
        len_eq_of_normSq_eq_sq hdpos.le hq0_mem.2.1
      have hq0_ratio : V3.dot (V3.sub T (axisProjection A v T))
          (V3.sub (circlePlanePoint (axisProjection A v T) v (axisDistance A v T) h 1)
            (axisProjection A v T)) /
          (axisDistance A v T * axisDistance A v T) ≤ -1 := by
        have := hq0_pi
        unfold measureAngle at this
        rw [hlu, hlq0] at this
        exact (Real.arccos_eq_pi).mp this
      have hq0_dot : V3.dot (V3.sub T (axisProjection A v T))
          (V3.sub (circlePlanePoint (axisProjection A v T) v (axisDistance A v T) h 1)
            (axisProjection A v T)) =
          -V3.normSq (V3.sub T (axisProjection A v T)) := by
        have hcs := dot_sq_le (V3.sub T (axisProjection A v T))
          (V3.sub (circlePlanePoint (axisProjection A v T) v (axisDistance A v T) h 1)
            (axisProjection A v T))
        rw [hnusq, hq0_mem.2.1] at hcs
        have hd2 : 0 < axisDistance A v T * axisDistance A v T := by positivity
        have hle := (div_le_iff₀ hd2).mp hq0_ratio
        rw [hnusq]
        nlinarith [hcs]
      have hq0_nsq : V3.normSq
          (V3.sub (circlePlanePoint (axisProjection A v T) v (axisDistance A v T) h 1)
            (axisProjection A v T)) =
          V3.normSq (V3.sub T (axisProjection A v T)) := by
        rw [hq0_mem.2.1, hnusq]
      have hq0_eq := eq_neg_of_dot_eq_neg hq0_nsq hq0_dot
      apply @circlePlanePoint_ne (axisProjection A v T) v (axisDistance A v T) h hs hD
      have hsub : V3.sub (circlePlanePoint (axisProjection A v T) v
            (axisDistance A v T) h 1) (axisProjection A v T) =
          V3.sub (circlePlanePoint (axisProjection A v T) v
            (axisDistance A v T) h (-1)) (axisProjection A v T) := by
        rw [hq0_eq, ← hwu]
      have hx := congrArg V3.x hsub
      have hy := congrArg V3.y hsub
      have hz := congrArg V3.z hsub
      simp only [V3.sub] at hx hy hz
      ext <;> linarith
  unfold rotate_to_height_matrix
  rw [setToRotateTo_maps hnw hnu hanti]
  ext <;> simp only [V3.add, V3.sub] <;> ring

/-- C1: for every non-vertical axis, off-axis target point and height the
call succeeds on, the matrix returned by `rotate_to_height_matrix` moves
the target point to a point whose z-coordinate equals the target height
exactly, and the measured rotation angle to the chosen candidate is at
most the angle to the alternate (rejected) candidate. -/
theorem C1_rotate_to_height_correct (A v T : V3) (h : ℝ)
    (hs : nonVertical v) (hoff : offAxis A v T)
    (hsucc : rotate_to_height_succeeds A v T h) :
    (rotate_to_height_matrix A v T h T).z = h ∧
      measureAngle T (axisProjection A v T) (rotate_to_height_destination A v T h) ≤
        measureAngle T (axisProjection A v T) (rotate_to_height_alternate A v T h) := by
  constructor
  · rw [matrix_maps_target hs hoff hsucc]
    exact (destination_mem_slice hs hsucc).2.2
  · unfold rotate_to_height_destination rotate_to_height_alternate
    split_ifs with hlt
    · exact hlt.le
    · exact not_lt.mp hlt

/-- Witness for C1 at the axis through the origin along x, target point
(0,1,0) and target height 0. -/
theorem C1_rotate_to_height_correct_witness :
    nonVertical (⟨1, 0, 0⟩ : V3) ∧ offAxis ⟨0, 0, 0⟩ ⟨1, 0, 0⟩ ⟨0, 1, 0⟩ ∧
      rotate_to_height_succeeds ⟨0, 0, 0⟩ ⟨1, 0, 0⟩ ⟨0, 1, 0⟩ 0 ∧
      ((rotate_to_height_matrix ⟨0, 0, 0⟩ ⟨1, 0, 0⟩ ⟨0, 1, 0⟩ 0 ⟨0, 1, 0⟩).z = 0 ∧
        measureAngle ⟨0, 1, 0⟩ (axisProjection ⟨0, 0, 0⟩ ⟨1, 0, 0⟩ ⟨0, 1, 0⟩)
          (rotate_to_height_destination ⟨0, 0, 0⟩ ⟨1, 0, 0⟩ ⟨0, 1, 0⟩ 0) ≤
        measureAngle ⟨0, 1, 0⟩ (axisProjection ⟨0, 0, 0⟩ ⟨1, 0, 0⟩ ⟨0, 1, 0⟩)
          (rotate_to_height_alternate ⟨0, 0, 0⟩ ⟨1, 0, 0⟩ ⟨0, 1, 0⟩ 0)) := by
  have h1 : nonVertical (⟨1, 0, 0⟩ : V3) := by norm_num [nonVertical]
  have h2 : offAxis ⟨0, 0, 0⟩ ⟨1, 0, 0⟩ ⟨0, 1, 0⟩ := by
    norm_num [offAxis, axisProjection, V3.normSq, V3.dot, V3.sub, V3.add, V3.smul]
  have h3 : rotate_to_height_succeeds ⟨0, 0, 0⟩ ⟨1, 0, 0⟩ ⟨0, 1, 0⟩ 0 := by
    norm_num [rotate_to_height_succeeds, rotate_to_height_intersections,
      circlePlaneIntersections, circlePlaneDisc, axisProjection, axisDistance,
      V3.len, V3.normSq, V3.dot, V3.sub, V3.add, V3.smul, Real.sqrt_one]
  exact ⟨h1, h2, h3, C1_rotate_to_height_correct _ _ _ _ h1 h2 h3⟩

/-- C9 (implicit): the returned matrix leaves the rotation axis fixed
pointwise — in particular the axis point and the perpendicular projection
of the target point onto the axis are unchanged. -/
theorem C9_matrix_fixes_axis_pointwise (A v T : V3) (h : ℝ) (hs : nonVertical v)
    (hsucc : rotate_to_height_succeeds A v T h) :
    rotate_to_height_matrix A v T h A = A ∧
      rotate_to_height_matrix A v T h (axisProjection A v T) = axisProjection A v T ∧
      ∀ X : V3, (∃ t : ℝ, X = V3.add A (V3.smul t v)) →
        rotate_to_height_matrix A v T h X = X := by
  have hgen : ∀ X : V3, (∃ t : ℝ, X = V3.add A (V3.smul t v)) →
      rotate_to_height_matrix A v T h X = X := by
    rintro X ⟨t, ht⟩
    exact matrix_fixes_axis hs hsucc ht
  refine ⟨?_, ?_, hgen⟩
  · apply hgen
    refine ⟨0, ?_⟩
    ext <;> simp only [V3.add, V3.smul] <;> ring
  · apply hgen
    exact ⟨V3.dot (V3.sub T A) v / V3.normSq v, rfl⟩

/-- Witness for C9 at the axis through the origin along x and target
point (0,1,0); the axis point and the projection are checked fixed. -/
theorem C9_matrix_fixes_axis_pointwise_witness :
    nonVertical (⟨1, 0, 0⟩ : V3) ∧
      rotate_to_height_succeeds ⟨0, 0, 0⟩ ⟨1, 0, 0⟩ ⟨0, 1, 0⟩ 0 ∧
      rotate_to_height_matrix ⟨0, 0, 0⟩ ⟨1, 0, 0⟩ ⟨0, 1, 0⟩ 0 ⟨0, 0, 0⟩ = ⟨0, 0, 0⟩ ∧
      rotate_to_height_matrix ⟨0, 0, 0⟩ ⟨1, 0, 0⟩ ⟨0, 1, 0⟩ 0
        (axisProjection ⟨0, 0, 0⟩ ⟨1, 0, 0⟩ ⟨0, 1, 0⟩) =
        axisProjection ⟨0, 0, 0⟩ ⟨1, 0, 0⟩ ⟨0, 1, 0⟩ := by
  have h1 : nonVertical (⟨1, 0, 0⟩ : V3) := by norm_num [nonVertical]
  have h3 : rotate_to_height_succeeds ⟨0, 0, 0⟩ ⟨1, 0, 0⟩ ⟨0, 1, 0⟩ 0 := by
    norm_num [rotate_to_height_succeeds, rotate_to_height_intersections,
      circlePlaneIntersections, circlePlaneDisc, axisProjection, axisDistance,
      V3.len, V3.normSq, V3.dot, V3.sub, V3.add, V3.smul, Real.sqrt_one]
  have hmain := C9_matrix_fixes_axis_pointwise ⟨0, 0, 0⟩ ⟨1, 0, 0⟩ ⟨0, 1, 0⟩ 0 h1 h3
  exact ⟨h1, h3, hmain.1, hmain.2.1⟩

/-- C10 (implicit): when the two candidates subtend exactly equal measured
angles, the strict less-than comparison fails and the second intersection
point is selected; the result still places the target point at the target
height. -/
theorem C10_tie_selects_second_candidate (A v T : V3) (h : ℝ) (hs : nonVertical v)
    (hoff : offAxis A v T) (hsucc : rotate_to_height_succeeds A v T h)
    (htie : measureAngle T (axisProjection A v T)
        ((rotate_to_height_intersections A v T h).getD 0 ⟨0, 0, 0⟩) =
      measureAngle T (axisProjection A v T)
        ((rotate_to_height_intersections A v T h).getD 1 ⟨0, 0, 0⟩)) :
    rotate_to_height_destination A v T h =
        (rotate_to_height_intersections A v T h).getD 1 ⟨0, 0, 0⟩ ∧
      (rotate_to_height_matrix A v T h T).z = h := by
  constructor
  · unfold rotate_to_height_destination
    rw [htie, if_neg (lt_irrefl _)]
  · rw [matrix_maps_target hs hoff hsucc]
    exact (destination_mem_slice hs hsucc).2.2

/-- Witness for C10: axis along x through the origin, target point (0,0,1),
height 0 — the two candidates (0,±1,0) subtend equal right angles. -/
theorem C10_tie_selects_second_candidate_witness :
    nonVertical (⟨1, 0, 0⟩ : V3) ∧ offAxis ⟨0, 0, 0⟩ ⟨1, 0, 0⟩ ⟨0, 0, 1⟩ ∧
      rotate_to_height_succeeds ⟨0, 0, 0⟩ ⟨1, 0, 0⟩ ⟨0, 0, 1⟩ 0 ∧
      measureAngle ⟨0, 0, 1⟩ (axisProjection ⟨0, 0, 0⟩ ⟨1, 0, 0⟩ ⟨0, 0, 1⟩)
        ((rotate_to_height_intersections ⟨0, 0, 0⟩ ⟨1, 0, 0⟩ ⟨0, 0, 1⟩ 0).getD 0 ⟨0, 0, 0⟩) =
      measureAngle ⟨0, 0, 1⟩ (axisProjection ⟨0, 0, 0⟩ ⟨1, 0, 0⟩ ⟨0, 0, 1⟩)
        ((rotate_to_height_intersections ⟨0, 0, 0⟩ ⟨1, 0, 0⟩ ⟨0, 0, 1⟩ 0).getD 1 ⟨0, 0, 0⟩) ∧
      (rotate_to_height_destination ⟨0, 0, 0⟩ ⟨1, 0, 0⟩ ⟨0, 0, 1⟩ 0 =
          (rotate_to_height_intersections ⟨0, 0, 0⟩ ⟨1, 0, 0⟩ ⟨0, 0, 1⟩ 0).getD 1 ⟨0, 0, 0⟩ ∧
        (rotate_to_height_matrix ⟨0, 0, 0⟩ ⟨1, 0, 0⟩ ⟨0, 0, 1⟩ 0 ⟨0, 0, 1⟩).z = 0) := by
  have h1 : nonVertical (⟨1, 0, 0⟩ : V3) := by norm_num [nonVertical]
  have h2 : offAxis ⟨0, 0, 0⟩ ⟨1, 0, 0⟩ ⟨0, 0, 1⟩ := by
    norm_num [offAxis, axisProjection, V3.normSq, V3.dot, V3.sub, V3.add, V3.smul]
  have h3 : rotate_to_height_succeeds ⟨0, 0, 0⟩ ⟨1, 0, 0⟩ ⟨0, 0, 1⟩ 0 := by
    norm_num [rotate_to_height_succeeds, rotate_to_height_intersections,
      circlePlaneIntersections, circlePlaneDisc, axisProjection, axisDistance,
      V3.len, V3.normSq, V3.dot, V3.sub, V3.add, V3.smul, Real.sqrt_one]
  have h4 : measureAngle ⟨0, 0, 1⟩ (axisProjection ⟨0, 0, 0⟩ ⟨1, 0, 0⟩ ⟨0, 0, 1⟩)
        ((rotate_to_height_intersections ⟨0, 0, 0⟩ ⟨1, 0, 0⟩ ⟨0, 0, 1⟩ 0).getD 0 ⟨0, 0, 0⟩) =
      measureAngle ⟨0, 0, 1⟩ (axisProjection ⟨0, 0, 0⟩ ⟨1, 0, 0⟩ ⟨0, 0, 1⟩)
        ((rotate_to_height_intersections ⟨0, 0, 0⟩ ⟨1, 0, 0⟩ ⟨0, 0, 1⟩ 0).getD 1 ⟨0, 0, 0⟩) := by
    norm_num [measureAngle, rotate_to_height_intersections, circlePlaneIntersections,
      circlePlaneDisc, circlePlanePoint, axisProjection, axisDistance,
      V3.len, V3.normSq, V3.dot, V3.sub, V3.add, V3.smul, Real.sqrt_one,
      List.getD_cons_zero, List.getD_cons_succ]
  exact ⟨h1, h2, h3, h4,
    C10_tie_selects_second_candidate ⟨0, 0, 0⟩ ⟨1, 0, 0⟩ ⟨0, 0, 1⟩ 0 h1 h2 h3 h4⟩

theorem measureAngle_nonneg (p1 p2 p3 : V3) : 0 ≤ measureAngle p1 p2 p3 :=
  Real.arccos_nonneg _

/-- C8: calling `rotate_to_height_matrix` with the target height equal to
the target point's current z-coordinate yields the identity transform:
every point is left unchanged. -/
theorem C8_same_height_gives_identity (A v T : V3) (hs : nonVertical v)
    (hoff : offAxis A v T) (hsucc : rotate_to_height_succeeds A v T T.z) :
    ∀ X : V3, rotate_to_height_matrix A v T T.z X = X := by
  have hD := succeeds_iff_disc_pos.mp hsucc
  have hdpos := axisDistance_pos hoff
  have hd2 : (0 : ℝ) < axisDistance A v T * axisDistance A v T := by positivity
  have hT_mem : T ∈ sweepPlaneSlice (axisProjection A v T) v (axisDistance A v T) T.z :=
    ⟨proj_perp A v T, (axisDistance_sq A v T).symm, rfl⟩
  have hlu : V3.len (V3.sub T (axisProjection A v T)) = axisDistance A v T :=
    len_eq_of_normSq_eq_sq hdpos.le (axisDistance_sq A v T).symm
  have hangleT : measureAngle T (axisProjection A v T) T = 0 := by
    unfold measureAngle
    rw [hlu]
    have hself : V3.dot (V3.sub T (axisProjection A v T))
        (V3.sub T (axisProjection A v T)) = axisDistance A v T ^ 2 :=
      (axisDistance_sq A v T).symm.symm ▸ (axisDistance_sq A v T).symm
    rw [hself]
    have hratio : axisDistance A v T ^ 2 /
        (axisDistance A v T * axisDistance A v T) = 1 := by
      field_simp
      ring
    rw [hratio, Real.arccos_one]
  have hzero_imp : ∀ q : V3,
      q ∈ sweepPlaneSlice (axisProjection A v T) v (axisDistance A v T) T.z →
      measureAngle T (axisProjection A v T) q = 0 → q = T := by
    intro q hq hq0
    have hlq : V3.len (V3.sub q (axisProjection A v T)) = axisDistance A v T :=
      len_eq_of_normSq_eq_sq hdpos.le hq.2.1
    unfold measureAngle at hq0
    rw [hlu, hlq] at hq0
    have hge := Real.arccos_eq_zero.mp hq0
    have hcs := dot_sq_le (V3.sub T (axisProjection A v T))
      (V3.sub q (axisProjection A v T))
    rw [← axisDistance_sq A v T, hq.2.1] at hcs
    have hge2 : axisDistance A v T * axisDistance A v T ≤
        V3.dot (V3.sub T (axisProjection A v T)) (V3.sub q (axisProjection A v T)) :=
      (one_le_div hd2).mp hge
    have hdot_eq : V3.dot (V3.sub T (axisProjection A v T))
        (V3.sub q (axisProjection A v T)) =
        V3.normSq (V3.sub T (axisProjection A v T)) := by
      rw [← axisDistance_sq A v T]
      nlinarith [hcs, hge2]
    have hnq : V3.normSq (V3.sub q (axisProjection A v T)) =
        V3.normSq (V3.sub T (axisProjection A v T)) := by
      rw [hq.2.1, ← axisDistance_sq A v T]
    have hq_eq := eq_of_dot_eq_pos hnq hdot_eq
    have hx := congrArg V3.x hq_eq
    have hy := congrArg V3.y hq_eq
    have hz := congrArg V3.z hq_eq
    simp only [V3.sub] at hx hy hz
    ext <;> linarith
  have hq0_mem := @circlePlanePoint_mem (axisProjection A v T) v
    (axisDistance A v T) T.z hs hD.le 1 (Or.inl rfl)
  have hq1_mem := @circlePlanePoint_mem (axisProjection A v T) v
    (axisDistance A v T) T.z hs hD.le (-1) (Or.inr rfl)
  have hdest : rotate_to_height_destination A v T T.z = T := by
    rw [destination_eq_if hD]
    rcases (sweepSlice_mem_branches hs hT_mem).2 with hcase | hcase
    · have ha1 : 0 < measureAngle T (axisProjection A v T)
          (circlePlanePoint (axisProjection A v T) v (axisDistance A v T) T.z (-1)) := by
        rcases (measureAngle_nonneg T (axisProjection A v T)
            (circlePlanePoint (axisProjection A v T) v (axisDistance A v T) T.z
              (-1))).lt_or_eq with hlt | heq
        · exact hlt
        · exfalso
          have hq1T := hzero_imp _ hq1_mem heq.symm
          apply @circlePlanePoint_ne (axisProjection A v T) v
            (axisDistance A v T) T.z hs hD
          rw [← hcase]
          exact hq1T.symm
      rw [← hcase, hangleT, if_pos ha1]
    · rw [← hcase, hangleT,
        if_neg (not_lt.mpr (measureAngle_nonneg T (axisProjection A v T) _))]
  intro X
  unfold rotate_to_height_matrix
  rw [hdest, setToRotateTo_self]
  ext <;> simp only [V3.add, V3.sub] <;> ring

/-- Witness for C8: axis along x through the origin, target point (0,1,0)
already at its own height; the point (5,7,9) is left unchanged. -/
theorem C8_same_height_gives_identity_witness :
    nonVertical (⟨1, 0, 0⟩ : V3) ∧ offAxis ⟨0, 0, 0⟩ ⟨1, 0, 0⟩ ⟨0, 1, 0⟩ ∧
      rotate_to_height_succeeds ⟨0, 0, 0⟩ ⟨1, 0, 0⟩ ⟨0, 1, 0⟩ 0 ∧
      rotate_to_height_matrix ⟨0, 0, 0⟩ ⟨1, 0, 0⟩ ⟨0, 1, 0⟩ 0 ⟨5, 7, 9⟩ = ⟨5, 7, 9⟩ := by
  have h1 : nonVertical (⟨1, 0, 0⟩ : V3) := by norm_num [nonVertical]
  have h2 : offAxis ⟨0, 0, 0⟩ ⟨1, 0, 0⟩ ⟨0, 1, 0⟩ := by
    norm_num [offAxis, axisProjection, V3.normSq, V3.dot, V3.sub, V3.add, V3.smul]
  have h3 : rotate_to_height_succeeds ⟨0, 0, 0⟩ ⟨1, 0, 0⟩ ⟨0, 1, 0⟩ 0 := by
    norm_num [rotate_to_height_succeeds, rotate_to_height_intersections,
      circlePlaneIntersections, circlePlaneDisc, axisProjection, axisDistance,
      V3.len, V3.normSq, V3.dot, V3.sub, V3.add, V3.smul, Real.sqrt_one]
  exact ⟨h1, h2, h3,
    C8_same_height_gives_identity ⟨0, 0, 0⟩ ⟨1, 0, 0⟩ ⟨0, 1, 0⟩ h1 h2 h3 ⟨5, 7, 9⟩⟩

/-- Counterexample to C3: with the axis along x through the origin, target
point (0,1,0) and target height 1, the swept circle is tangent to the
plane — the geometric intersection is the single point (0,0,1) and the
kernel reports one intersection — yet `rotate_to_height_matrix` aborts
(its `assert len(intersections) == 2` fails), contradicting the claim
that one intersection lets the call proceed. -/
theorem C3_counterexample :
    sweepPlaneSlice (axisProjection ⟨0, 0, 0⟩ ⟨1, 0, 0⟩ ⟨0, 1, 0⟩) ⟨1, 0, 0⟩
        (axisDistance ⟨0, 0, 0⟩ ⟨1, 0, 0⟩ ⟨0, 1, 0⟩) 1 = {(⟨0, 0, 1⟩ : V3)} ∧
      (rotate_to_height_intersections ⟨0, 0, 0⟩ ⟨1, 0, 0⟩ ⟨0, 1, 0⟩ 1).length = 1 ∧
      ¬ rotate_to_height_succeeds ⟨0, 0, 0⟩ ⟨1, 0, 0⟩ ⟨0, 1, 0⟩ 1 := by
  have hP : axisProjection ⟨0, 0, 0⟩ ⟨1, 0, 0⟩ ⟨0, 1, 0⟩ = ⟨0, 0, 0⟩ := by
    ext <;> norm_num [axisProjection, V3.normSq, V3.dot, V3.sub, V3.add, V3.smul]
  have hd : axisDistance ⟨0, 0, 0⟩ ⟨1, 0, 0⟩ ⟨0, 1, 0⟩ = 1 := by
    norm_num [axisDistance, hP, V3.len, V3.normSq, V3.dot, V3.sub, Real.sqrt_one]
  refine ⟨?_, ?_, ?_⟩
  · rw [hP, hd]
    ext p
    simp only [sweepPlaneSlice, V3.normSq, V3.dot, V3.sub, Set.mem_setOf_eq,
      Set.mem_singleton_iff]
    constructor
    · rintro ⟨h1, h2, h3⟩
      norm_num at h1 h2 h3
      have hy : p.y = 0 := by nlinarith [h2, h1, h3]
      ext <;> simp_all
    · rintro rfl
      norm_num
  · norm_num [rotate_to_height_intersections, hP, hd, circlePlaneIntersections,
      circlePlaneDisc]
  · norm_num [rotate_to_height_succeeds, rotate_to_height_intersections, hP, hd,
      circlePlaneIntersections, circlePlaneDisc]

/-- C3 amended: `rotate_to_height_matrix` proceeds exactly when the circle
swept by the target point meets the plane `z = target_height` in two
distinct points; zero intersections or a tangency (one intersection)
abort the part-generation call. -/
theorem C3_amended_succeeds_iff_two_points (A v T : V3) (h : ℝ)
    (hs : nonVertical v) :
    rotate_to_height_succeeds A v T h ↔
      ∃ p q : V3, p ≠ q ∧
        p ∈ sweepPlaneSlice (axisProjection A v T) v (axisDistance A v T) h ∧
        q ∈ sweepPlaneSlice (axisProjection A v T) v (axisDistance A v T) h := by
  constructor
  · intro hsucc
    have hD := succeeds_iff_disc_pos.mp hsucc
    exact ⟨_, _, circlePlanePoint_ne hs hD,
      circlePlanePoint_mem hs hD.le (Or.inl rfl),
      circlePlanePoint_mem hs hD.le (Or.inr rfl)⟩
  · rintro ⟨p, q, hne, hp, hq⟩
    rw [succeeds_iff_disc_pos]
    obtain ⟨hD0, hp12⟩ := sweepSlice_mem_branches hs hp
    obtain ⟨-, hq12⟩ := sweepSlice_mem_branches hs hq
    rcases hD0.lt_or_eq with hpos | hzero
    · exact hpos
    · exfalso
      have hpt : circlePlanePoint (axisProjection A v T) v (axisDistance A v T) h 1 =
          circlePlanePoint (axisProjection A v T) v (axisDistance A v T) h (-1) := by
        ext <;> simp only [circlePlanePoint, ← hzero, Real.sqrt_zero] <;> ring
      rcases hp12 with rfl | rfl <;> rcases hq12 with rfl | rfl <;> simp_all

/-- Witness for the amended C3 at the axis along x through the origin,
target point (0,1,0), height 0 (two intersections exist there). -/
theorem C3_amended_succeeds_iff_two_points_witness :
    nonVertical (⟨1, 0, 0⟩ : V3) ∧
      (rotate_to_height_succeeds ⟨0, 0, 0⟩ ⟨1, 0, 0⟩ ⟨0, 1, 0⟩ 0 ↔
        ∃ p q : V3, p ≠ q ∧
          p ∈ sweepPlaneSlice (axisProjection ⟨0, 0, 0⟩ ⟨1, 0, 0⟩ ⟨0, 1, 0⟩) ⟨1, 0, 0⟩
            (axisDistance ⟨0, 0, 0⟩ ⟨1, 0, 0⟩ ⟨0, 1, 0⟩) 0 ∧
          q ∈ sweepPlaneSlice (axisProjection ⟨0, 0, 0⟩ ⟨1, 0, 0⟩ ⟨0, 1, 0⟩) ⟨1, 0, 0⟩
            (axisDistance ⟨0, 0, 0⟩ ⟨1, 0, 0⟩ ⟨0, 1, 0⟩) 0) := by
  have h1 : nonVertical (⟨1, 0, 0⟩ : V3) := by norm_num [nonVertical]
  exact ⟨h1, C3_amended_succeeds_iff_two_points ⟨0, 0, 0⟩ ⟨1, 0, 0⟩ ⟨0, 1, 0⟩ 0 h1⟩

/-- C2: two-stage sequential leveling.  With the first attachment point
already at its target height, rotating about the world-fixed x-axis
through it to level the second point, then about the axis through the
first two points to level the third, puts all three points exactly at
their target heights; the second rotation leaves the first two points
fixed (so it does not disturb their heights). -/
theorem C2_two_stage_leveling (p1 p2 p3 : V3) (h1 h2 h3 : ℝ)
    (hz1 : p1.z = h1)
    (hoff1 : offAxis p1 ⟨1, 0, 0⟩ p2)
    (hsucc1 : rotate_to_height_succeeds p1 ⟨1, 0, 0⟩ p2 h2)
    (hs2 : nonVertical (V3.sub (rotate_to_height_matrix p1 ⟨1, 0, 0⟩ p2 h2 p2) p1))
    (hoff2 : offAxis p1 (V3.sub (rotate_to_height_matrix p1 ⟨1, 0, 0⟩ p2 h2 p2) p1)
      (rotate_to_height_matrix p1 ⟨1, 0, 0⟩ p2 h2 p3))
    (hsucc2 : rotate_to_height_succeeds p1
      (V3.sub (rotate_to_height_matrix p1 ⟨1, 0, 0⟩ p2 h2 p2) p1)
      (rotate_to_height_matrix p1 ⟨1, 0, 0⟩ p2 h2 p3) h3) :
    (level_two_stage p1 p2 p3 h2 h3).1.z = h1 ∧
      (level_two_stage p1 p2 p3 h2 h3).2.1.z = h2 ∧
      (level_two_stage p1 p2 p3 h2 h3).2.2.z = h3 ∧
      (level_two_stage p1 p2 p3 h2 h3).1 =
        rotate_to_height_matrix p1 ⟨1, 0, 0⟩ p2 h2 p1 ∧
      (level_two_stage p1 p2 p3 h2 h3).2.1 =
        rotate_to_height_matrix p1 ⟨1, 0, 0⟩ p2 h2 p2 := by
  have hs1 : nonVertical (⟨1, 0, 0⟩ : V3) := by norm_num [nonVertical]
  have hM1p1 : rotate_to_height_matrix p1 ⟨1, 0, 0⟩ p2 h2 p1 = p1 :=
    matrix_fixes_axis hs1 hsucc1 (t := 0)
      (by ext <;> simp only [V3.add, V3.smul] <;> ring)
  have hM1p2z : (rotate_to_height_matrix p1 ⟨1, 0, 0⟩ p2 h2 p2).z = h2 := by
    rw [matrix_maps_target hs1 hoff1 hsucc1]
    exact (destination_mem_slice hs1 hsucc1).2.2
  have hM2fix1 : rotate_to_height_matrix p1
      (V3.sub (rotate_to_height_matrix p1 ⟨1, 0, 0⟩ p2 h2 p2) p1)
      (rotate_to_height_matrix p1 ⟨1, 0, 0⟩ p2 h2 p3) h3 p1 = p1 :=
    matrix_fixes_axis hs2 hsucc2 (t := 0)
      (by ext <;> simp only [V3.add, V3.smul] <;> ring)
  have hM2fix2 : rotate_to_height_matrix p1
      (V3.sub (rotate_to_height_matrix p1 ⟨1, 0, 0⟩ p2 h2 p2) p1)
      (rotate_to_height_matrix p1 ⟨1, 0, 0⟩ p2 h2 p3) h3
      (rotate_to_height_matrix p1 ⟨1, 0, 0⟩ p2 h2 p2) =
      rotate_to_height_matrix p1 ⟨1, 0, 0⟩ p2 h2 p2 :=
    matrix_fixes_axis hs2 hsucc2 (t := 1)
      (by ext <;> simp only [V3.add, V3.smul, V3.sub] <;> ring)
  have hM2p3z : (rotate_to_height_matrix p1
      (V3.sub (rotate_to_height_matrix p1 ⟨1, 0, 0⟩ p2 h2 p2) p1)
      (rotate_to_height_matrix p1 ⟨1, 0, 0⟩ p2 h2 p3) h3
      (rotate_to_height_matrix p1 ⟨1, 0, 0⟩ p2 h2 p3)).z = h3 := by
    rw [matrix_maps_target hs2 hoff2 hsucc2]
    exact (destination_mem_slice hs2 hsucc2).2.2
  refine ⟨?_, ?_, ?_, ?_, ?_⟩
  · show (rotate_to_height_matrix p1
        (V3.sub (rotate_to_height_matrix p1 ⟨1, 0, 0⟩ p2 h2 p2) p1)
        (rotate_to_height_matrix p1 ⟨1, 0, 0⟩ p2 h2 p3) h3
        (rotate_to_height_matrix p1 ⟨1, 0, 0⟩ p2 h2 p1)).z = h1
    rw [hM1p1, hM2fix1, hz1]
  · show (rotate_to_height_matrix p1
        (V3.sub (rotate_to_height_matrix p1 ⟨1, 0, 0⟩ p2 h2 p2) p1)
        (rotate_to_height_matrix p1 ⟨1, 0, 0⟩ p2 h2 p3) h3
        (rotate_to_height_matrix p1 ⟨1, 0, 0⟩ p2 h2 p2)).z = h2
    rw [hM2fix2, hM1p2z]
  · exact hM2p3z
  · show rotate_to_height_matrix p1
        (V3.sub (rotate_to_height_matrix p1 ⟨1, 0, 0⟩ p2 h2 p2) p1)
        (rotate_to_height_matrix p1 ⟨1, 0, 0⟩ p2 h2 p3) h3
        (rotate_to_height_matrix p1 ⟨1, 0, 0⟩ p2 h2 p1) =
      rotate_to_height_matrix p1 ⟨1, 0, 0⟩ p2 h2 p1
    rw [hM1p1, hM2fix1]
  · exact hM2fix2

/-- Witness for C2 at p1 = origin, p2 = (0,1,0), p3 = (1,0,0), all target
heights 0 (both stage rotations are feasible there). -/
theorem C2_two_stage_leveling_witness :
    (⟨0, 0, 0⟩ : V3).z = 0 ∧
      offAxis ⟨0, 0, 0⟩ ⟨1, 0, 0⟩ ⟨0, 1, 0⟩ ∧
      rotate_to_height_succeeds ⟨0, 0, 0⟩ ⟨1, 0, 0⟩ ⟨0, 1, 0⟩ 0 ∧
      nonVertical (V3.sub
        (rotate_to_height_matrix ⟨0, 0, 0⟩ ⟨1, 0, 0⟩ ⟨0, 1, 0⟩ 0 ⟨0, 1, 0⟩) ⟨0, 0, 0⟩) ∧
      offAxis ⟨0, 0, 0⟩
        (V3.sub (rotate_to_height_matrix ⟨0, 0, 0⟩ ⟨1, 0, 0⟩ ⟨0, 1, 0⟩ 0 ⟨0, 1, 0⟩)
          ⟨0, 0, 0⟩)
        (rotate_to_height_matrix ⟨0, 0, 0⟩ ⟨1, 0, 0⟩ ⟨0, 1, 0⟩ 0 ⟨1, 0, 0⟩) ∧
      rotate_to_height_succeeds ⟨0, 0, 0⟩
        (V3.sub (rotate_to_height_matrix ⟨0, 0, 0⟩ ⟨1, 0, 0⟩ ⟨0, 1, 0⟩ 0 ⟨0, 1, 0⟩)
          ⟨0, 0, 0⟩)
        (rotate_to_height_matrix ⟨0, 0, 0⟩ ⟨1, 0, 0⟩ ⟨0, 1, 0⟩ 0 ⟨1, 0, 0⟩) 0 ∧
      ((level_two_stage ⟨0, 0, 0⟩ ⟨0, 1, 0⟩ ⟨1, 0, 0⟩ 0 0).1.z = 0 ∧
        (level_two_stage ⟨0, 0, 0⟩ ⟨0, 1, 0⟩ ⟨1, 0, 0⟩ 0 0).2.1.z = 0 ∧
        (level_two_stage ⟨0, 0, 0⟩ ⟨0, 1, 0⟩ ⟨1, 0, 0⟩ 0 0).2.2.z = 0 ∧
        (level_two_stage ⟨0, 0, 0⟩ ⟨0, 1, 0⟩ ⟨1, 0, 0⟩ 0 0).1 =
          rotate_to_height_matrix ⟨0, 0, 0⟩ ⟨1, 0, 0⟩ ⟨0, 1, 0⟩ 0 ⟨0, 0, 0⟩ ∧
        (level_two_stage ⟨0, 0, 0⟩ ⟨0, 1, 0⟩ ⟨1, 0, 0⟩ 0 0).2.1 =
          rotate_to_height_matrix ⟨0, 0, 0⟩ ⟨1, 0, 0⟩ ⟨0, 1, 0⟩ 0 ⟨0, 1, 0⟩) := by
  have hM1p2 : rotate_to_height_matrix ⟨0, 0, 0⟩ ⟨1, 0, 0⟩ ⟨0, 1, 0⟩ 0 ⟨0, 1, 0⟩ =
      ⟨0, 1, 0⟩ := by
    ext <;>
      norm_num [rotate_to_height_matrix, rotate_to_height_destination,
        rotate_to_height_intersections, circlePlaneIntersections, circlePlaneDisc,
        circlePlanePoint, axisProjection, axisDistance, measureAngle, setToRotateTo,
        V3.len, V3.normSq, V3.dot, V3.cross, V3.sub, V3.add, V3.smul, Real.sqrt_one,
        Real.arccos_one, Real.arccos_neg_one, Real.pi_pos,
        List.getD_cons_zero, List.getD_cons_succ]
  have hM1p3 : rotate_to_height_matrix ⟨0, 0, 0⟩ ⟨1, 0, 0⟩ ⟨0, 1, 0⟩ 0 ⟨1, 0, 0⟩ =
      ⟨1, 0, 0⟩ := by
    ext <;>
      norm_num [rotate_to_height_matrix, rotate_to_height_destination,
        rotate_to_height_intersections, circlePlaneIntersections, circlePlaneDisc,
        circlePlanePoint, axisProjection, axisDistance, measureAngle, setToRotateTo,
        V3.len, V3.normSq, V3.dot, V3.cross, V3.sub, V3.add, V3.smul, Real.sqrt_one,
        Real.arccos_one, Real.arccos_neg_one, Real.pi_pos,
        List.getD_cons_zero, List.getD_cons_succ]
  have g1 : (⟨0, 0, 0⟩ : V3).z = 0 := rfl
  have g2 : offAxis ⟨0, 0, 0⟩ ⟨1, 0, 0⟩ ⟨0, 1, 0⟩ := by
    norm_num [offAxis, axisProjection, V3.normSq, V3.dot, V3.sub, V3.add, V3.smul]
  have g3 : rotate_to_height_succeeds ⟨0, 0, 0⟩ ⟨1, 0, 0⟩ ⟨0, 1, 0⟩ 0 := by
    norm_num [rotate_to_height_succeeds, rotate_to_height_intersections,
      circlePlaneIntersections, circlePlaneDisc, axisProjection, axisDistance,
      V3.len, V3.normSq, V3.dot, V3.sub, V3.add, V3.smul, Real.sqrt_one]
  have g4 : nonVertical (V3.sub
      (rotate_to_height_matrix ⟨0, 0, 0⟩ ⟨1, 0, 0⟩ ⟨0, 1, 0⟩ 0 ⟨0, 1, 0⟩) ⟨0, 0, 0⟩) := by
    rw [hM1p2]
    norm_num [nonVertical, V3.sub]
  have g5 : offAxis ⟨0, 0, 0⟩
      (V3.sub (rotate_to_height_matrix ⟨0, 0, 0⟩ ⟨1, 0, 0⟩ ⟨0, 1, 0⟩ 0 ⟨0, 1, 0⟩)
        ⟨0, 0, 0⟩)
      (rotate_to_height_matrix ⟨0, 0, 0⟩ ⟨1, 0, 0⟩ ⟨0, 1, 0⟩ 0 ⟨1, 0, 0⟩) := by
    rw [hM1p2, hM1p3]
    norm_num [offAxis, axisProjection, V3.normSq, V3.dot, V3.sub, V3.add, V3.smul]
  have g6 : rotate_to_height_succeeds ⟨0, 0, 0⟩
      (V3.sub (rotate_to_height_matrix ⟨0, 0, 0⟩ ⟨1, 0, 0⟩ ⟨0, 1, 0⟩ 0 ⟨0, 1, 0⟩)
        ⟨0, 0, 0⟩)
      (rotate_to_height_matrix ⟨0, 0, 0⟩ ⟨1, 0, 0⟩ ⟨0, 1, 0⟩ 0 ⟨1, 0, 0⟩) 0 := by
    rw [hM1p2, hM1p3]
    norm_num [rotate_to_height_succeeds, rotate_to_height_intersections,
      circlePlaneIntersections, circlePlaneDisc, axisProjection, axisDistance,
      V3.len, V3.normSq, V3.dot, V3.sub, V3.add, V3.smul, Real.sqrt_one]
  exact ⟨g1, g2, g3, g4, g5, g6,
    C2_two_stage_leveling ⟨0, 0, 0⟩ ⟨0, 1, 0⟩ ⟨1, 0, 0⟩ 0 0 0 g1 g2 g3 g4 g5 g6⟩

/-- C5: the thread-phase rotation is `-360 * axial_offset / pitch` degrees
for every positive pitch and every axial offset; with the default thread
pitch 1.4, a full pitch of travel gives -360 and zero offset gives 0. -/
theorem C5_phase_rotation_formula (pitch axial_offset : ℝ) (hp : 0 < pitch) :
    phase_rotation pitch axial_offset = -360 * axial_offset / pitch ∧
      default_thread_pitch = 1.4 ∧
      phase_rotation default_thread_pitch default_thread_pitch = -360 ∧
      phase_rotation default_thread_pitch 0 = 0 := by
  refine ⟨rfl, rfl, ?_, ?_⟩
  · norm_num [phase_rotation, default_thread_pitch, screw_thread_profile]
  · norm_num [phase_rotation, default_thread_pitch, screw_thread_profile]

/-- Witness for C5 at pitch 1.4 and axial offset 2.8. -/
theorem C5_phase_rotation_formula_witness :
    (0 : ℝ) < 1.4 ∧
      (phase_rotation 1.4 2.8 = -360 * 2.8 / 1.4 ∧
        default_thread_pitch = 1.4 ∧
        phase_rotation default_thread_pitch default_thread_pitch = -360 ∧
        phase_rotation default_thread_pitch 0 = 0) :=
  ⟨by norm_num, C5_phase_rotation_formula 1.4 2.8 (by norm_num)⟩

theorem v2_dot_comm (u v : V2) : V2.dot u v = V2.dot v u := by
  simp only [V2.dot]
  ring

theorem v2_normSq_nonneg (v : V2) : 0 ≤ V2.normSq v := by
  simp only [V2.normSq, V2.dot]
  nlinarith [sq_nonneg v.x, sq_nonneg v.y]

theorem v2_normSq_add (a b : V2) :
    V2.normSq (V2.add a b) = V2.normSq a + 2 * V2.dot a b + V2.normSq b := by
  simp only [V2.normSq, V2.dot, V2.add]
  ring

theorem v2_normSq_smul (t : ℝ) (a : V2) :
    V2.normSq (V2.smul t a) = t ^ 2 * V2.normSq a := by
  simp only [V2.normSq, V2.dot, V2.smul]
  ring

theorem v2_dot_smul_left (t : ℝ) (a b : V2) :
    V2.dot (V2.smul t a) b = t * V2.dot a b := by
  simp only [V2.dot, V2.smul]
  ring

theorem v2_dot_smul_right (t : ℝ) (a b : V2) :
    V2.dot a (V2.smul t b) = t * V2.dot a b := by
  simp only [V2.dot, V2.smul]
  ring

theorem v2_dot_add_left (a b c : V2) :
    V2.dot (V2.add a b) c = V2.dot a c + V2.dot b c := by
  simp only [V2.dot, V2.add]
  ring

theorem v2_dot_add_right (a b c : V2) :
    V2.dot a (V2.add b c) = V2.dot a b + V2.dot a c := by
  simp only [V2.dot, V2.add]
  ring

theorem v2_perp_dot (e : V2) : V2.dot e ⟨-e.y, e.x⟩ = 0 := by
  simp only [V2.dot]
  ring

theorem v2_perp_dot_left (e : V2) : V2.dot ⟨-e.y, e.x⟩ e = 0 := by
  simp only [V2.dot]
  ring

theorem v2_perp_dot_self (e : V2) : V2.dot ⟨-e.y, e.x⟩ ⟨-e.y, e.x⟩ = V2.dot e e := by
  simp only [V2.dot]
  ring

theorem circleCirclePoint_on_first {c1 c2 : Circle2}
    (hL : V2.normSq (V2.sub c2.center c1.center) ≠ 0)
    (hD : 0 ≤ circleCircleDisc c1 c2) {s : ℝ} (hs : s = 1 ∨ s = -1) :
    V2.normSq (V2.sub (circleCirclePoint c1 c2 s) c1.center) = c1.radius ^ 2 := by
  have hR2 : Real.sqrt (circleCircleDisc c1 c2) ^ 2 = circleCircleDisc c1 c2 :=
    Real.sq_sqrt hD
  have hexp : V2.sub (circleCirclePoint c1 c2 s) c1.center =
      V2.add
        (V2.smul ((V2.normSq (V2.sub c2.center c1.center) + c1.radius ^ 2 -
            c2.radius ^ 2) / (2 * V2.normSq (V2.sub c2.center c1.center)))
          (V2.sub c2.center c1.center))
        (V2.smul (s * Real.sqrt (circleCircleDisc c1 c2))
          ⟨-(V2.sub c2.center c1.center).y, (V2.sub c2.center c1.center).x⟩) := by
    ext <;> simp only [circleCirclePoint, V2.add, V2.smul, V2.sub] <;> ring
  rw [hexp, v2_normSq_add, v2_normSq_smul, v2_normSq_smul, v2_dot_smul_left,
    v2_dot_smul_right, v2_perp_dot]
  have hperp : V2.normSq
      (⟨-(V2.sub c2.center c1.center).y, (V2.sub c2.center c1.center).x⟩ : V2) =
      V2.normSq (V2.sub c2.center c1.center) := v2_perp_dot_self _
  rw [hperp]
  rcases hs with rfl | rfl <;>
    · rw [mul_pow, hR2]
      simp only [circleCircleDisc]
      field_simp
      ring

theorem circleCirclePoint_ne {c1 c2 : Circle2}
    (hL : V2.normSq (V2.sub c2.center c1.center) ≠ 0)
    (hD : 0 < circleCircleDisc c1 c2) :
    circleCirclePoint c1 c2 1 ≠ circleCirclePoint c1 c2 (-1) := by
  intro he
  have hx := congrArg V2.x he
  have hy := congrArg V2.y he
  simp only [circleCirclePoint, V2.add, V2.smul, one_mul, neg_mul, mul_neg,
    neg_neg] at hx hy
  have hRpos : 0 < Real.sqrt (circleCircleDisc c1 c2) := Real.sqrt_pos.mpr hD
  have hEy : (V2.sub c2.center c1.center).y *
      Real.sqrt (circleCircleDisc c1 c2) = 0 := by linarith
  have hEx : (V2.sub c2.center c1.center).x *
      Real.sqrt (circleCircleDisc c1 c2) = 0 := by linarith
  apply hL
  have hy0 : (V2.sub c2.center c1.center).y = 0 := by
    rcases mul_eq_zero.mp hEy with h1 | h1
    · exact h1
    · exact absurd h1 (ne_of_gt hRpos)
  have hx0 : (V2.sub c2.center c1.center).x = 0 := by
    rcases mul_eq_zero.mp hEx with h1 | h1
    · exact h1
    · exact absurd h1 (ne_of_gt hRpos)
  simp only [V2.normSq, V2.dot, hx0, hy0]
  ring

theorem circleCirclePoint_thales {c1 c2 : Circle2} {p : V2}
    (hL : V2.normSq (V2.sub c2.center c1.center) ≠ 0)
    (hD : 0 ≤ circleCircleDisc c1 c2)
    (hp : V2.sub p c1.center = V2.smul 2 (V2.sub c2.center c1.center))
    (hr2 : c2.radius ^ 2 = V2.normSq (V2.sub c2.center c1.center))
    {s : ℝ} (hs : s = 1 ∨ s = -1) :
    V2.dot (V2.sub (circleCirclePoint c1 c2 s) p)
      (V2.sub (circleCirclePoint c1 c2 s) c1.center) = 0 := by
  have hR2 : Real.sqrt (circleCircleDisc c1 c2) ^ 2 = circleCircleDisc c1 c2 :=
    Real.sq_sqrt hD
  have hpx := congrArg V2.x hp
  have hpy := congrArg V2.y hp
  simp only [V2.sub, V2.smul] at hpx hpy
  have hXp : V2.sub (circleCirclePoint c1 c2 s) p =
      V2.add
        (V2.smul ((V2.normSq (V2.sub c2.center c1.center) + c1.radius ^ 2 -
            c2.radius ^ 2) / (2 * V2.normSq (V2.sub c2.center c1.center)) - 2)
          (V2.sub c2.center c1.center))
        (V2.smul (s * Real.sqrt (circleCircleDisc c1 c2))
          ⟨-(V2.sub c2.center c1.center).y, (V2.sub c2.center c1.center).x⟩) := by
    ext
    · simp only [circleCirclePoint, V2.add, V2.smul, V2.sub] at hpx ⊢
      linear_combination -hpx
    · simp only [circleCirclePoint, V2.add, V2.smul, V2.sub] at hpy ⊢
      linear_combination -hpy
  have hXC : V2.sub (circleCirclePoint c1 c2 s) c1.center =
      V2.add
        (V2.smul ((V2.normSq (V2.sub c2.center c1.center) + c1.radius ^ 2 -
            c2.radius ^ 2) / (2 * V2.normSq (V2.sub c2.center c1.center)))
          (V2.sub c2.center c1.center))
        (V2.smul (s * Real.sqrt (circleCircleDisc c1 c2))
          ⟨-(V2.sub c2.center c1.center).y, (V2.sub c2.center c1.center).x⟩) := by
    ext <;> simp only [circleCirclePoint, V2.add, V2.smul, V2.sub] <;> ring
  rw [hXp, hXC, v2_dot_add_left, v2_dot_add_right, v2_dot_add_right,
    v2_dot_smul_left, v2_dot_smul_left, v2_dot_smul_left, v2_dot_smul_left,
    v2_dot_smul_right, v2_dot_smul_right, v2_dot_smul_right, v2_dot_smul_right,
    v2_perp_dot, v2_perp_dot_left, v2_perp_dot_self]
  have hND : V2.dot (V2.sub c2.center c1.center) (V2.sub c2.center c1.center) =
      V2.normSq (V2.sub c2.center c1.center) := rfl
  rw [hND, hr2]
  rcases hs with rfl | rfl <;>
    · ring_nf
      rw [Real.sq_sqrt hD]
      simp only [circleCircleDisc]
      rw [hr2]
      field_simp
      ring

theorem C4_tangent_points (circle : Circle2) (point : V2)
    (hr : 0 < circle.radius)
    (hout : circle.radius ^ 2 < V2.normSq (V2.sub point circle.center)) :
    ∃ q1 q2 : V2, find_tangent_intersection_on_circle circle point = [q1, q2] ∧
      q1 ≠ q2 ∧
      (V2.normSq (V2.sub q1 circle.center) = circle.radius ^ 2 ∧
        V2.dot (V2.sub q1 point) (V2.sub q1 circle.center) = 0) ∧
      (V2.normSq (V2.sub q2 circle.center) = circle.radius ^ 2 ∧
        V2.dot (V2.sub q2 point) (V2.sub q2 circle.center) = 0) := by
  set aux : Circle2 :=
    ⟨V2.add point (V2.smul (1 / 2) (V2.sub circle.center point)),
     V2.len (V2.smul (1 / 2) (V2.sub circle.center point))⟩ with haux
  have hq2pos : 0 < V2.normSq (V2.sub point circle.center) := by
    nlinarith [hout, sq_nonneg circle.radius]
  have hq2ne : V2.normSq (V2.sub point circle.center) ≠ 0 := ne_of_gt hq2pos
  have hLq : V2.normSq (V2.sub aux.center circle.center) =
      V2.normSq (V2.sub point circle.center) / 4 := by
    rw [haux]
    simp only [V2.normSq, V2.dot, V2.add, V2.smul, V2.sub]
    ring
  have hNne : V2.normSq (V2.sub aux.center circle.center) ≠ 0 := by
    rw [hLq]
    intro hcon
    apply hq2ne
    linarith
  have hr2q : aux.radius ^ 2 = V2.normSq (V2.sub point circle.center) / 4 := by
    have hrad : aux.radius = V2.len (V2.smul (1 / 2) (V2.sub circle.center point)) := by
      rw [haux]
    rw [hrad, V2.len, Real.sq_sqrt (v2_normSq_nonneg _)]
    simp only [V2.normSq, V2.dot, V2.smul, V2.sub]
    ring
  have hr2N : aux.radius ^ 2 = V2.normSq (V2.sub aux.center circle.center) := by
    rw [hr2q, hLq]
  have hDval : circleCircleDisc circle aux =
      4 * circle.radius ^ 2 *
        (V2.normSq (V2.sub point circle.center) - circle.radius ^ 2) /
        V2.normSq (V2.sub point circle.center) ^ 2 := by
    simp only [circleCircleDisc]
    rw [hLq, hr2q]
    field_simp
    ring
  have hDpos : 0 < circleCircleDisc circle aux := by
    rw [hDval]
    have h1 : 0 < V2.normSq (V2.sub point circle.center) - circle.radius ^ 2 := by
      linarith
    positivity
  have hRpos : 0 < Real.sqrt (circleCircleDisc circle aux) := Real.sqrt_pos.mpr hDpos
  have hR2 : Real.sqrt (circleCircleDisc circle aux) ^ 2 = circleCircleDisc circle aux :=
    Real.sq_sqrt hDpos.le
  have hlist : find_tangent_intersection_on_circle circle point =
      [circleCirclePoint circle aux 1, circleCirclePoint circle aux (-1)] := by
    rw [haux]
    unfold find_tangent_intersection_on_circle circleCircleIntersections
    rw [← haux, if_pos hDpos]
  have hne : circleCirclePoint circle aux 1 ≠ circleCirclePoint circle aux (-1) :=
    circleCirclePoint_ne hNne hDpos
  have hp2e : V2.sub point circle.center = V2.smul 2 (V2.sub aux.center circle.center) := by
    rw [haux]
    ext <;> simp only [V2.add, V2.smul, V2.sub] <;> ring
  refine ⟨circleCirclePoint circle aux 1, circleCirclePoint circle aux (-1),
    hlist, hne,
    ⟨?_, circleCirclePoint_thales hNne hDpos.le hp2e hr2N (Or.inl rfl)⟩,
    ⟨?_, circleCirclePoint_thales hNne hDpos.le hp2e hr2N (Or.inr rfl)⟩⟩
  · exact circleCirclePoint_on_first hNne hDpos.le (Or.inl rfl)
  · exact circleCirclePoint_on_first hNne hDpos.le (Or.inr rfl)

/-- Witness for C4: the unit circle at the origin and the external point
(5/4, 0); the tangent points are (4/5, 3/5) and (4/5, -3/5). -/
theorem C4_tangent_points_witness :
    (0 : ℝ) < (1 : ℝ) ∧
      (1 : ℝ) ^ 2 < V2.normSq (V2.sub ⟨5 / 4, 0⟩ (⟨0, 0⟩ : V2)) ∧
      (∃ q1 q2 : V2,
        find_tangent_intersection_on_circle ⟨⟨0, 0⟩, 1⟩ ⟨5 / 4, 0⟩ = [q1, q2] ∧
        q1 ≠ q2 ∧
        (V2.normSq (V2.sub q1 (⟨0, 0⟩ : V2)) = 1 ^ 2 ∧
          V2.dot (V2.sub q1 ⟨5 / 4, 0⟩) (V2.sub q1 (⟨0, 0⟩ : V2)) = 0) ∧
        (V2.normSq (V2.sub q2 (⟨0, 0⟩ : V2)) = 1 ^ 2 ∧
          V2.dot (V2.sub q2 ⟨5 / 4, 0⟩) (V2.sub q2 (⟨0, 0⟩ : V2)) = 0)) := by
  have h1 : (0 : ℝ) < (1 : ℝ) := by norm_num
  have h2 : (1 : ℝ) ^ 2 < V2.normSq (V2.sub ⟨5 / 4, 0⟩ (⟨0, 0⟩ : V2)) := by
    norm_num [V2.normSq, V2.dot, V2.sub]
  exact ⟨h1, h2, C4_tangent_points ⟨⟨0, 0⟩, 1⟩ ⟨5 / 4, 0⟩ h1 h2⟩

theorem sin_neg90deg : Real.sin (-(90 * Real.pi) / 180) = -1 := by
  have h : -(90 * Real.pi) / 180 = -(Real.pi / 2) := by ring
  rw [h, Real.sin_neg, Real.sin_pi_div_two]

theorem cos_neg90deg : Real.cos (-(90 * Real.pi) / 180) = 0 := by
  have h : -(90 * Real.pi) / 180 = -(Real.pi / 2) := by ring
  rw [h, Real.cos_neg, Real.cos_pi_div_two]

theorem ridge_right_eq : ridge_right = ⟨1, 0⟩ := by
  ext <;> simp [ridge_right, ridge_up, rotated, sin_neg90deg, cos_neg90deg]

theorem ridge_down_eq : ridge_down = ⟨0, -1⟩ := by
  rw [ridge_down, ridge_right_eq]
  ext <;> simp [rotated, sin_neg90deg, cos_neg90deg]

theorem ridge_left_eq : ridge_left = ⟨-1, 0⟩ := by
  rw [ridge_left, ridge_down_eq]
  ext <;> simp [rotated, sin_neg90deg, cos_neg90deg]

theorem rotated_down (a : ℝ) :
    rotated ridge_down a =
      ⟨Real.sin (a * Real.pi / 180), -Real.cos (a * Real.pi / 180)⟩ := by
  rw [ridge_down_eq]
  ext <;> simp only [rotated] <;> ring

theorem rotated_left (a : ℝ) :
    rotated ridge_left a =
      ⟨-Real.cos (a * Real.pi / 180), -Real.sin (a * Real.pi / 180)⟩ := by
  rw [ridge_left_eq]
  ext <;> simp only [rotated] <;> ring

theorem rotated_down_neg (a : ℝ) :
    rotated ridge_down (-a) =
      ⟨-Real.sin (a * Real.pi / 180), -Real.cos (a * Real.pi / 180)⟩ := by
  rw [rotated_down]
  have h : -a * Real.pi / 180 = -(a * Real.pi / 180) := by ring
  rw [h, Real.sin_neg, Real.cos_neg]

theorem rotated_left_neg (a : ℝ) :
    rotated ridge_left (-a) =
      ⟨-Real.cos (a * Real.pi / 180), Real.sin (a * Real.pi / 180)⟩ := by
  rw [rotated_left]
  have h : -a * Real.pi / 180 = -(a * Real.pi / 180) := by ring
  rw [h, Real.sin_neg, Real.cos_neg, neg_neg]

theorem rotated_downlit_neg (a : ℝ) :
    rotated ⟨0, -1⟩ (-a) =
      ⟨-Real.sin (a * Real.pi / 180), -Real.cos (a * Real.pi / 180)⟩ := by
  rw [← ridge_down_eq]
  exact rotated_down_neg a

theorem rotated_leftlit_neg (a : ℝ) :
    rotated ⟨-1, 0⟩ (-a) =
      ⟨-Real.cos (a * Real.pi / 180), Real.sin (a * Real.pi / 180)⟩ := by
  rw [← ridge_left_eq]
  exact rotated_left_neg a

theorem rotated_down_45 :
    rotated ridge_down retaining_ridge_lower_angle =
      ⟨Real.sqrt 2 / 2, -(Real.sqrt 2 / 2)⟩ := by
  rw [retaining_ridge_lower_angle, rotated_down]
  have h : (45 : ℝ) * Real.pi / 180 = Real.pi / 4 := by ring
  rw [h, Real.sin_pi_div_four, Real.cos_pi_div_four]

theorem lineIntersect_mem_fst (l1 l2 : Line2) : lineIntersect l1 l2 ∈ lineSet l1 :=
  ⟨_, rfl⟩

theorem lineIntersect_mem_snd {l1 l2 : Line2} (h : cross2 l1.dir l2.dir ≠ 0) :
    lineIntersect l1 l2 ∈ lineSet l2 := by
  refine ⟨cross2 (V2.sub l2.origin l1.origin) l1.dir / cross2 l1.dir l2.dir, ?_⟩
  have hc := h
  simp only [cross2] at hc
  ext <;> simp only [lineIntersect, cross2, V2.add, V2.smul, V2.sub] <;>
    field_simp <;> ring

theorem lineIntersect_unique {l1 l2 : Line2} (h : cross2 l1.dir l2.dir ≠ 0)
    {p : V2} (hp1 : p ∈ lineSet l1) (hp2 : p ∈ lineSet l2) :
    lineIntersect l1 l2 = p := by
  obtain ⟨t1, rfl⟩ := hp1
  obtain ⟨u, hu⟩ := hp2
  have hux := congrArg V2.x hu
  have huy := congrArg V2.y hu
  simp only [V2.add, V2.smul] at hux huy
  have hteq : cross2 (V2.sub l2.origin l1.origin) l2.dir / cross2 l1.dir l2.dir = t1 := by
    rw [div_eq_iff h]
    simp only [cross2, V2.sub]
    linear_combination (-l2.dir.y) * hux + l2.dir.x * huy
  unfold lineIntersect
  rw [hteq]

theorem ridge_points_eq (pressed_key_angle : ℝ) :
    retaining_ridge_points pressed_key_angle =
      [lineIntersect (ridge_line3 pressed_key_angle) (ridge_line0 pressed_key_angle),
       lineIntersect (ridge_line0 pressed_key_angle) ridge_line1,
       lineIntersect ridge_line1 (ridge_line2 pressed_key_angle),
       lineIntersect (ridge_line2 pressed_key_angle) (ridge_line3 pressed_key_angle)] := by
  rfl

theorem ridge_l1_l2_cross (pressed_key_angle : ℝ) :
    cross2 ridge_line1.dir (ridge_line2 pressed_key_angle).dir =
      Real.cos (pressed_key_angle * Real.pi / 180) := by
  simp only [ridge_line1, ridge_line2, ridge_left_eq, rotated_down_neg, cross2]
  ring

theorem ridge_P1 (pressed_key_angle : ℝ) :
    lineIntersect (ridge_line0 pressed_key_angle) ridge_line1 = ⟨0, 0⟩ := by
  ext <;>
    simp [lineIntersect, ridge_line0, ridge_line1, cross2, V2.add, V2.smul, V2.sub]

theorem ridge_P2 (pressed_key_angle : ℝ)
    (hc : Real.cos (pressed_key_angle * Real.pi / 180) ≠ 0) :
    lineIntersect ridge_line1 (ridge_line2 pressed_key_angle) =
      ⟨-retaining_ridge_thickness / Real.cos (pressed_key_angle * Real.pi / 180), 0⟩ := by
  have hpy := Real.sin_sq_add_cos_sq (pressed_key_angle * Real.pi / 180)
  ext
  · simp only [lineIntersect, ridge_line1, ridge_line2, vectorTo, ridge_left_eq,
      ridge_down_eq, rotated_downlit_neg, rotated_leftlit_neg, cross2, V2.add,
      V2.smul, V2.sub]
    field_simp
    linear_combination -retaining_ridge_thickness * hpy
  · simp only [lineIntersect, ridge_line1, ridge_line2, vectorTo, ridge_left_eq,
      ridge_down_eq, rotated_downlit_neg, rotated_leftlit_neg, cross2, V2.add,
      V2.smul, V2.sub]
    ring

theorem ridge_l3_origin_val (pressed_key_angle : ℝ)
    (hc : Real.cos (pressed_key_angle * Real.pi / 180) ≠ 0) :
    (ridge_line3 pressed_key_angle).origin =
      ⟨-retaining_ridge_thickness / Real.cos (pressed_key_angle * Real.pi / 180) -
          retaining_ridge_width * Real.sin (pressed_key_angle * Real.pi / 180),
        -(retaining_ridge_width * Real.cos (pressed_key_angle * Real.pi / 180))⟩ := by
  have h2 := ridge_P2 pressed_key_angle hc
  simp only [ridge_line3, vectorTo]
  rw [h2, rotated_down_neg]
  ext <;> simp only [V2.add, V2.smul] <;> ring

theorem ridge_l3_origin_mem (pressed_key_angle : ℝ)
    (hc : Real.cos (pressed_key_angle * Real.pi / 180) ≠ 0) :
    (ridge_line3 pressed_key_angle).origin ∈ lineSet (ridge_line2 pressed_key_angle) := by
  have hcross : cross2 ridge_line1.dir (ridge_line2 pressed_key_angle).dir ≠ 0 := by
    rw [ridge_l1_l2_cross]
    exact hc
  obtain ⟨t, ht⟩ := lineIntersect_mem_snd hcross
  refine ⟨t + retaining_ridge_width, ?_⟩
  simp only [ridge_line3, vectorTo]
  rw [ht]
  ext <;> simp only [ridge_line2, V2.add, V2.smul] <;> ring

theorem ridge_P3 (pressed_key_angle : ℝ)
    (hc : Real.cos (pressed_key_angle * Real.pi / 180) ≠ 0)
    (hcs : Real.cos (pressed_key_angle * Real.pi / 180) +
      Real.sin (pressed_key_angle * Real.pi / 180) ≠ 0) :
    lineIntersect (ridge_line2 pressed_key_angle) (ridge_line3 pressed_key_angle) =
      (ridge_line3 pressed_key_angle).origin := by
  have hs2 : (0 : ℝ) < Real.sqrt 2 := Real.sqrt_pos.mpr (by norm_num)
  have hcross : cross2 (ridge_line2 pressed_key_angle).dir
      (ridge_line3 pressed_key_angle).dir ≠ 0 := by
    have hd2 : (ridge_line2 pressed_key_angle).dir =
        rotated ridge_down (-pressed_key_angle) := rfl
    have hd3 : (ridge_line3 pressed_key_angle).dir =
        rotated ridge_down retaining_ridge_lower_angle := rfl
    rw [hd2, hd3, rotated_down_neg, rotated_down_45]
    simp only [cross2]
    intro hcon
    apply hcs
    nlinarith [hcon, hs2]
  apply lineIntersect_unique hcross
  · exact ridge_l3_origin_mem pressed_key_angle hc
  · exact ⟨0, by ext <;> simp only [V2.add, V2.smul] <;> ring⟩

theorem ridge_P0 (pressed_key_angle : ℝ)
    (hc : Real.cos (pressed_key_angle * Real.pi / 180) ≠ 0)
    (hcs : Real.cos (pressed_key_angle * Real.pi / 180) +
      Real.sin (pressed_key_angle * Real.pi / 180) ≠ 0) :
    lineIntersect (ridge_line3 pressed_key_angle) (ridge_line0 pressed_key_angle) =
      ⟨-retaining_ridge_thickness / Real.cos (pressed_key_angle * Real.pi / 180) -
          retaining_ridge_width * Real.sin (pressed_key_angle * Real.pi / 180) +
          retaining_ridge_thickness / (Real.cos (pressed_key_angle * Real.pi / 180) +
            Real.sin (pressed_key_angle * Real.pi / 180)),
        -(retaining_ridge_width * Real.cos (pressed_key_angle * Real.pi / 180)) -
          retaining_ridge_thickness / (Real.cos (pressed_key_angle * Real.pi / 180) +
            Real.sin (pressed_key_angle * Real.pi / 180))⟩ := by
  have hs2 : (0 : ℝ) < Real.sqrt 2 := Real.sqrt_pos.mpr (by norm_num)
  have h22 : Real.sqrt 2 * Real.sqrt 2 = 2 := Real.mul_self_sqrt (by norm_num)
  have horig := ridge_l3_origin_val pressed_key_angle hc
  have hd3 : (ridge_line3 pressed_key_angle).dir =
      rotated ridge_down retaining_ridge_lower_angle := rfl
  have hd0 : (ridge_line0 pressed_key_angle).dir =
      rotated ridge_down (-pressed_key_angle) := rfl
  have ho0 : (ridge_line0 pressed_key_angle).origin = ⟨0, 0⟩ := rfl
  have hcross : cross2 (ridge_line3 pressed_key_angle).dir
      (ridge_line0 pressed_key_angle).dir ≠ 0 := by
    rw [hd3, hd0, rotated_down_neg, rotated_down_45]
    simp only [cross2]
    intro hcon
    apply hcs
    nlinarith [hcon, hs2]
  apply lineIntersect_unique hcross
  · refine ⟨Real.sqrt 2 * retaining_ridge_thickness /
      (Real.cos (pressed_key_angle * Real.pi / 180) +
        Real.sin (pressed_key_angle * Real.pi / 180)), ?_⟩
    rw [horig, hd3, rotated_down_45]
    ext <;> simp only [V2.add, V2.smul] <;> field_simp <;> ring_nf <;>
      rw [Real.sq_sqrt (by norm_num : (0 : ℝ) ≤ 2)] <;> ring
  · refine ⟨retaining_ridge_width + retaining_ridge_thickness /
      (Real.cos (pressed_key_angle * Real.pi / 180) *
        (Real.cos (pressed_key_angle * Real.pi / 180) +
          Real.sin (pressed_key_angle * Real.pi / 180))), ?_⟩
    rw [hd0, ho0, rotated_down_neg]
    ext <;> simp only [V2.add, V2.smul] <;> field_simp <;> ring

/-- C6: the four ridge-profile vertices are produced, in order, as the
cyclic consecutive-pair intersections L3∩L0, L0∩L1, L1∩L2, L2∩L3 of the
four constructed lines (the `range(-1, 3)` loop with Python wraparound
indexing); L3's starting point lies on L2, and L2 is parallel to L0
(same direction vector). -/
theorem C6_ridge_vertex_construction (pressed_key_angle : ℝ)
    (hc : Real.cos (pressed_key_angle * Real.pi / 180) ≠ 0) :
    retaining_ridge_points pressed_key_angle = spec_ridge_vertices pressed_key_angle ∧
      (ridge_line3 pressed_key_angle).origin ∈ lineSet (ridge_line2 pressed_key_angle) ∧
      (ridge_line2 pressed_key_angle).dir = (ridge_line0 pressed_key_angle).dir := by
  exact ⟨by rw [ridge_points_eq]; rfl, ridge_l3_origin_mem pressed_key_angle hc, rfl⟩

/-- Witness for C6 at pressed_key_angle = 0. -/
theorem C6_ridge_vertex_construction_witness :
    Real.cos ((0 : ℝ) * Real.pi / 180) ≠ 0 ∧
      (retaining_ridge_points 0 = spec_ridge_vertices 0 ∧
        (ridge_line3 0).origin ∈ lineSet (ridge_line2 0) ∧
        (ridge_line2 0).dir = (ridge_line0 0).dir) := by
  have hc : Real.cos ((0 : ℝ) * Real.pi / 180) ≠ 0 := by
    norm_num [Real.cos_zero]
  exact ⟨hc, C6_ridge_vertex_construction 0 hc⟩

theorem seg_left_mem (a b : V2) : a ∈ seg a b :=
  ⟨0, le_refl 0, by norm_num, by ext <;> simp [V2.add, V2.smul, V2.sub]⟩

theorem seg_right_mem (a b : V2) : b ∈ seg a b :=
  ⟨1, by norm_num, le_refl 1, by ext <;> simp only [V2.add, V2.smul, V2.sub] <;> ring⟩

theorem seg_cross_pos {v w a b : V2} (ha : 0 < cross2 v (V2.sub a w))
    (hb : 0 < cross2 v (V2.sub b w)) {q : V2} (hq : q ∈ seg a b) :
    0 < cross2 v (V2.sub q w) := by
  obtain ⟨t, ht0, ht1, rfl⟩ := hq
  have hlin : cross2 v (V2.sub (V2.add a (V2.smul t (V2.sub b a))) w) =
      (1 - t) * cross2 v (V2.sub a w) + t * cross2 v (V2.sub b w) := by
    simp only [cross2, V2.sub, V2.add, V2.smul]
    ring
  rw [hlin]
  rcases ht0.lt_or_eq with htp | hte
  · have h1 : 0 < t * cross2 v (V2.sub b w) := mul_pos htp hb
    have h2 : 0 ≤ (1 - t) * cross2 v (V2.sub a w) := mul_nonneg (by linarith) ha.le
    linarith
  · rw [← hte]
    ring_nf
    linarith [ha]

theorem seg_cross_zero {v w a b : V2} (ha : cross2 v (V2.sub a w) = 0)
    (hb : cross2 v (V2.sub b w) = 0) {q : V2} (hq : q ∈ seg a b) :
    cross2 v (V2.sub q w) = 0 := by
  obtain ⟨t, ht0, ht1, rfl⟩ := hq
  have hlin : cross2 v (V2.sub (V2.add a (V2.smul t (V2.sub b a))) w) =
      (1 - t) * cross2 v (V2.sub a w) + t * cross2 v (V2.sub b w) := by
    simp only [cross2, V2.sub, V2.add, V2.smul]
    ring
  rw [hlin, ha, hb]
  ring

theorem seg_disjoint_of_side {a b c d : V2}
    (hc : 0 < cross2 (V2.sub b a) (V2.sub c a))
    (hd : 0 < cross2 (V2.sub b a) (V2.sub d a)) :
    seg a b ∩ seg c d = ∅ := by
  ext q
  simp only [Set.mem_inter_iff, Set.mem_empty_iff_false, iff_false, not_and]
  intro hq1 hq2
  have h1 : cross2 (V2.sub b a) (V2.sub q a) = 0 := by
    refine seg_cross_zero ?_ ?_ hq1
    · simp only [cross2, V2.sub]
      ring
    · simp only [cross2, V2.sub]
      ring
  have h2 : 0 < cross2 (V2.sub b a) (V2.sub q a) := seg_cross_pos hc hd hq2
  linarith

theorem seg_adjacent_inter {a b c : V2}
    (h : 0 < cross2 (V2.sub b a) (V2.sub c b)) :
    seg a b ∩ seg b c = {b} := by
  ext q
  simp only [Set.mem_inter_iff, Set.mem_singleton_iff]
  constructor
  · rintro ⟨hq1, hq2⟩
    have hz : cross2 (V2.sub b a) (V2.sub q a) = 0 := by
      refine seg_cross_zero ?_ ?_ hq1
      · simp only [cross2, V2.sub]
        ring
      · simp only [cross2, V2.sub]
        ring
    obtain ⟨t, ht0, ht1, rfl⟩ := hq2
    have hval : cross2 (V2.sub b a) (V2.sub (V2.add b (V2.smul t (V2.sub c b))) a) =
        t * cross2 (V2.sub b a) (V2.sub c b) := by
      simp only [cross2, V2.sub, V2.add, V2.smul]
      ring
    rw [hval] at hz
    have ht : t = 0 := by
      rcases mul_eq_zero.mp hz with h1 | h1
      · exact h1
      · exact absurd h1 (ne_of_gt h)
    rw [ht]
    ext <;> simp [V2.add, V2.smul, V2.sub]
  · rintro rfl
    exact ⟨seg_right_mem _ _, seg_left_mem _ _⟩

theorem convexCCW4_simple {p0 p1 p2 p3 : V2} (h : convexCCW4 p0 p1 p2 p3) :
    simple4 p0 p1 p2 p3 := by
  obtain ⟨c01, c12, c23, c30⟩ := h
  refine ⟨?_, ?_, seg_adjacent_inter c01, seg_adjacent_inter c12,
    seg_adjacent_inter c23, seg_adjacent_inter c30⟩
  · apply seg_disjoint_of_side
    · have he : cross2 (V2.sub p1 p0) (V2.sub p2 p0) =
          cross2 (V2.sub p1 p0) (V2.sub p2 p1) := by
        simp only [cross2, V2.sub]
        ring
      linarith [he, c01]
    · have he : cross2 (V2.sub p1 p0) (V2.sub p3 p0) =
          cross2 (V2.sub p0 p3) (V2.sub p1 p0) := by
        simp only [cross2, V2.sub]
        ring
      linarith [he, c30]
  · apply seg_disjoint_of_side
    · have he : cross2 (V2.sub p2 p1) (V2.sub p3 p1) =
          cross2 (V2.sub p2 p1) (V2.sub p3 p2) := by
        simp only [cross2, V2.sub]
        ring
      linarith [he, c12]
    · have he : cross2 (V2.sub p2 p1) (V2.sub p0 p1) =
          cross2 (V2.sub p1 p0) (V2.sub p2 p1) := by
        simp only [cross2, V2.sub]
        ring
      linarith [he, c01]

theorem convexCCW4_area_pos {p0 p1 p2 p3 : V2} (h : convexCCW4 p0 p1 p2 p3) :
    0 < signedArea4 p0 p1 p2 p3 := by
  obtain ⟨c01, c12, c23, c30⟩ := h
  have he : 2 * signedArea4 p0 p1 p2 p3 =
      cross2 (V2.sub p2 p1) (V2.sub p3 p2) + cross2 (V2.sub p0 p3) (V2.sub p1 p0) := by
    simp only [signedArea4, cross2, V2.sub]
    ring
  linarith

theorem ridge_vertices_convex (pressed_key_angle : ℝ)
    (h0 : 0 ≤ pressed_key_angle) (h15 : pressed_key_angle ≤ 15) :
    convexCCW4
      (lineIntersect (ridge_line3 pressed_key_angle) (ridge_line0 pressed_key_angle))
      (lineIntersect (ridge_line0 pressed_key_angle) ridge_line1)
      (lineIntersect ridge_line1 (ridge_line2 pressed_key_angle))
      (lineIntersect (ridge_line2 pressed_key_angle) (ridge_line3 pressed_key_angle)) := by
  have hpi := Real.pi_pos
  have hr0 : 0 ≤ pressed_key_angle * Real.pi / 180 := by positivity
  have hr2 : pressed_key_angle * Real.pi / 180 < Real.pi / 2 := by nlinarith
  have hcpos : 0 < Real.cos (pressed_key_angle * Real.pi / 180) :=
    Real.cos_pos_of_mem_Ioo ⟨by nlinarith, hr2⟩
  have hspos : 0 ≤ Real.sin (pressed_key_angle * Real.pi / 180) :=
    Real.sin_nonneg_of_nonneg_of_le_pi hr0 (by nlinarith)
  have hc : Real.cos (pressed_key_angle * Real.pi / 180) ≠ 0 := ne_of_gt hcpos
  have hcspos : 0 < Real.cos (pressed_key_angle * Real.pi / 180) +
      Real.sin (pressed_key_angle * Real.pi / 180) := by linarith
  have hcs : Real.cos (pressed_key_angle * Real.pi / 180) +
      Real.sin (pressed_key_angle * Real.pi / 180) ≠ 0 := ne_of_gt hcspos
  have hk : (0 : ℝ) < retaining_ridge_thickness := by norm_num [retaining_ridge_thickness]
  have hw : (0 : ℝ) < retaining_ridge_width := by norm_num [retaining_ridge_width]
  rw [ridge_P0 pressed_key_angle hc hcs, ridge_P1, ridge_P2 pressed_key_angle hc,
    ridge_P3 pressed_key_angle hc hcs, ridge_l3_origin_val pressed_key_angle hc]
  refine ⟨?_, ?_, ?_, ?_⟩ <;> simp only [cross2, V2.sub]
  · refine lt_of_lt_of_eq (b := retaining_ridge_thickness * retaining_ridge_width +
      retaining_ridge_thickness ^ 2 /
        (Real.cos (pressed_key_angle * Real.pi / 180) *
          (Real.cos (pressed_key_angle * Real.pi / 180) +
            Real.sin (pressed_key_angle * Real.pi / 180)))) ?_ ?_
    · have hp1 : 0 < retaining_ridge_thickness * retaining_ridge_width := mul_pos hk hw
      have hp2 : 0 < retaining_ridge_thickness ^ 2 /
          (Real.cos (pressed_key_angle * Real.pi / 180) *
            (Real.cos (pressed_key_angle * Real.pi / 180) +
              Real.sin (pressed_key_angle * Real.pi / 180))) :=
        div_pos (pow_pos hk 2) (mul_pos hcpos hcspos)
      linarith
    · field_simp
      ring
  · refine lt_of_lt_of_eq (b := retaining_ridge_thickness * retaining_ridge_width) ?_ ?_
    · exact mul_pos hk hw
    · field_simp
      ring
  · refine lt_of_lt_of_eq (b := retaining_ridge_thickness * retaining_ridge_width) ?_ ?_
    · exact mul_pos hk hw
    · field_simp
      ring
  · refine lt_of_lt_of_eq (b := (retaining_ridge_thickness * retaining_ridge_width *
        Real.cos (pressed_key_angle * Real.pi / 180) +
      retaining_ridge_thickness * retaining_ridge_width *
        Real.sin (pressed_key_angle * Real.pi / 180) +
      retaining_ridge_thickness ^ 2 / Real.cos (pressed_key_angle * Real.pi / 180)) /
        (Real.cos (pressed_key_angle * Real.pi / 180) +
          Real.sin (pressed_key_angle * Real.pi / 180))) ?_ ?_
    · apply div_pos ?_ hcspos
      have hp1 : 0 < retaining_ridge_thickness * retaining_ridge_width *
          Real.cos (pressed_key_angle * Real.pi / 180) := mul_pos (mul_pos hk hw) hcpos
      have hp2 : 0 ≤ retaining_ridge_thickness * retaining_ridge_width *
          Real.sin (pressed_key_angle * Real.pi / 180) :=
        mul_nonneg (mul_pos hk hw).le hspos
      have hp3 : 0 < retaining_ridge_thickness ^ 2 /
          Real.cos (pressed_key_angle * Real.pi / 180) :=
        div_pos (pow_pos hk 2) hcpos
      linarith
    · field_simp
      ring

/-- C7: for every pressed_key_angle in the practical range 0°–15° (which
includes 0), the four ridge-profile vertices form a strictly convex,
simple (non-self-intersecting) quadrilateral with positive signed area. -/
theorem C7_ridge_profile_valid (pressed_key_angle : ℝ)
    (h0 : 0 ≤ pressed_key_angle) (h15 : pressed_key_angle ≤ 15) :
    convexCCW4
      ((retaining_ridge_points pressed_key_angle).getD 0 ⟨0, 0⟩)
      ((retaining_ridge_points pressed_key_angle).getD 1 ⟨0, 0⟩)
      ((retaining_ridge_points pressed_key_angle).getD 2 ⟨0, 0⟩)
      ((retaining_ridge_points pressed_key_angle).getD 3 ⟨0, 0⟩) ∧
      simple4
        ((retaining_ridge_points pressed_key_angle).getD 0 ⟨0, 0⟩)
        ((retaining_ridge_points pressed_key_angle).getD 1 ⟨0, 0⟩)
        ((retaining_ridge_points pressed_key_angle).getD 2 ⟨0, 0⟩)
        ((retaining_ridge_points pressed_key_angle).getD 3 ⟨0, 0⟩) ∧
      0 < signedArea4
        ((retaining_ridge_points pressed_key_angle).getD 0 ⟨0, 0⟩)
        ((retaining_ridge_points pressed_key_angle).getD 1 ⟨0, 0⟩)
        ((retaining_ridge_points pressed_key_angle).getD 2 ⟨0, 0⟩)
        ((retaining_ridge_points pressed_key_angle).getD 3 ⟨0, 0⟩) := by
  have hconv := ridge_vertices_convex pressed_key_angle h0 h15
  rw [ridge_points_eq]
  simp only [List.getD_cons_zero, List.getD_cons_succ]
  exact ⟨hconv, convexCCW4_simple hconv, convexCCW4_area_pos hconv⟩

/-- Witness for C7 at pressed_key_angle = 0. -/
theorem C7_ridge_profile_valid_witness :
    (0 : ℝ) ≤ 0 ∧ (0 : ℝ) ≤ 15 ∧
      (convexCCW4
        ((retaining_ridge_points 0).getD 0 ⟨0, 0⟩)
        ((retaining_ridge_points 0).getD 1 ⟨0, 0⟩)
        ((retaining_ridge_points 0).getD 2 ⟨0, 0⟩)
        ((retaining_ridge_points 0).getD 3 ⟨0, 0⟩) ∧
      simple4
        ((retaining_ridge_points 0).getD 0 ⟨0, 0⟩)
        ((retaining_ridge_points 0).getD 1 ⟨0, 0⟩)
        ((retaining_ridge_points 0).getD 2 ⟨0, 0⟩)
        ((retaining_ridge_points 0).getD 3 ⟨0, 0⟩) ∧
      0 < signedArea4
        ((retaining_ridge_points 0).getD 0 ⟨0, 0⟩)
        ((retaining_ridge_points 0).getD 1 ⟨0, 0⟩)
        ((retaining_ridge_points 0).getD 2 ⟨0, 0⟩)
        ((retaining_ridge_points 0).getD 3 ⟨0, 0⟩)) :=
  ⟨le_refl 0, by norm_num, C7_ridge_profile_valid 0 (le_refl 0) (by norm_num)⟩

end

end Lalboard
